import Mathlib

/-!
# Verification of the `infinite_chess` engine core

A shallow embedding, in Lean 4, of the core of a Rust program that analyses
infinite-chessboard endgames ("a fixed multiset of white pieces vs a lone black
king").  Every definition below is translated from a specific Rust source item
(named in its doc comment); theorems at the end of the file settle the claims
about the program.

Modelling conventions:
* Rust `i32`/`i64`/`u64` values are modelled by `Int`/`Nat`; where bit-level
  behaviour matters (the packed square of `core/square.rs`, the serialized
  bundle of `solution/mod.rs`, saturating counters of `search/resources.rs`)
  the two's-complement wrap is made explicit with `% 2^w`.
* The packed square `Square(i64)` is modelled at the rules level by
  `Option Coord` (`none` = the `Square::NONE` sentinel); the bit-level packing
  itself is modelled separately and verified to round-trip.
* Stateful fixed-point loops (`trap.rs`, `buchi.rs`, `forced_mate.rs`) are
  modelled by iterating their loop body a sufficient number of times; a fuel
  lemma shows the iteration reaches the loop's exit condition (no change).
* The fallible `Result<_, SearchError>` plumbing for resource budgets is
  dropped in the solver models: the claims below are about solves that
  complete without a limit error, and the budget checks do not alter the
  computed sets.
-/

namespace InfChess

/-- Integer 2-D coordinate, from `core/coord.rs` (`struct Coord { x: i32, y: i32 }`).
Coordinates are modelled as unbounded integers. -/
structure Coord where
  x : Int
  y : Int
deriving DecidableEq, Repr

/-- `Coord::ORIGIN`. -/
def Coord.origin : Coord := ⟨0, 0⟩

/-- `impl Add for Coord`. -/
def Coord.add (a b : Coord) : Coord := ⟨a.x + b.x, a.y + b.y⟩

/-- `impl Sub for Coord`. -/
def Coord.sub (a b : Coord) : Coord := ⟨a.x - b.x, a.y - b.y⟩

/-- `impl Neg for Coord`. -/
def Coord.neg (a : Coord) : Coord := ⟨-a.x, -a.y⟩

/-- `impl Mul<i32> for Coord`. -/
def Coord.smul (a : Coord) (k : Int) : Coord := ⟨a.x * k, a.y * k⟩

/-- `Coord::chebyshev_norm`. -/
def Coord.cheb (a : Coord) : Int := max a.x.natAbs a.y.natAbs

/-- The 8 king steps, in the order of `core/coord.rs::KING_STEPS`. -/
def KING_STEPS : List Coord :=
  [⟨-1, -1⟩, ⟨-1, 0⟩, ⟨-1, 1⟩, ⟨0, -1⟩, ⟨0, 1⟩, ⟨1, -1⟩, ⟨1, 0⟩, ⟨1, 1⟩]

/-! ## Bit-level packed square (`core/square.rs`)

`Square` packs a coordinate into an `i64`: high 32 bits = x, low 32 bits = y,
with `i64::MIN` as the `NONE` sentinel.  We model the `i64` by its value in
`[-2^63, 2^63)` and make the two's-complement conversions explicit. -/

/-- Interpret the low `w` bits (a value in `[0, 2^w)`) as a signed two's-complement
integer. -/
def toSigned (w : Nat) (n : Nat) : Int :=
  if n < 2 ^ (w - 1) then (n : Int) else (n : Int) - 2 ^ w

/-- `Square::NONE = Square(i64::MIN)`. -/
def noneRaw : Int := -(2 ^ 63)

/-- `Square::from_coord`: `((c.x as i64) << 32) | (c.y as u32 as i64)`.
The shifted high half has zero low bits, so the bitwise or is addition of the
high half and the zero-extended low half. -/
def packSquare (x y : Int) : Int :=
  toSigned 64 ((x % 2 ^ 32).toNat * 2 ^ 32 + (y % 2 ^ 32).toNat)

/-- `Square::coord`, x component: `(self.0 >> 32) as i32` (arithmetic shift,
then truncation to the low 32 bits of the result). -/
def unpackX (v : Int) : Int :=
  toSigned 32 ((v % 2 ^ 64).toNat / 2 ^ 32)

/-- `Square::coord`, y component: `self.0 as i32` (truncation to the low 32 bits). -/
def unpackY (v : Int) : Int :=
  toSigned 32 ((v % 2 ^ 32).toNat)

/-- `Square::is_none`: comparison of the raw packed value with `i64::MIN`. -/
def isNoneRaw (v : Int) : Bool := v = noneRaw

/-! ## Rules-level squares and positions

At the rules level (`chess/rules.rs`, `core/position.rs`) a square is either
the captured-piece sentinel or a coordinate; we use `Option Coord`. -/

/-- A board square: `none` is `Square::NONE` (captured piece). -/
abbrev Square := Option Coord

/-- The `Ord` instance of `core/square.rs`: `NONE` is less than any coordinate,
coordinates compare lexicographically by `(x, y)`. -/
def squareLE (a b : Square) : Bool :=
  match a, b with
  | none, _ => true
  | some _, none => false
  | some c, some d => decide (c.x < d.x ∨ (c.x = d.x ∧ c.y ≤ d.y))

/-- Piece kinds, from `chess/piece.rs`. -/
inductive PieceKind where
  | king
  | queen
  | rook
  | bishop
  | knight
deriving DecidableEq, Repr

/-- Rook directions (`ROOK_DIRS`, the same values in `chess/rules.rs` and
`chess/piece.rs`). -/
def ROOK_DIRS : List Coord := [⟨1, 0⟩, ⟨-1, 0⟩, ⟨0, 1⟩, ⟨0, -1⟩]

/-- Bishop directions (`BISHOP_DIRS`). -/
def BISHOP_DIRS : List Coord := [⟨1, 1⟩, ⟨1, -1⟩, ⟨-1, 1⟩, ⟨-1, -1⟩]

/-- Queen directions (`QUEEN_DIRS`). -/
def QUEEN_DIRS : List Coord :=
  [⟨1, 0⟩, ⟨-1, 0⟩, ⟨0, 1⟩, ⟨0, -1⟩, ⟨1, 1⟩, ⟨1, -1⟩, ⟨-1, 1⟩, ⟨-1, -1⟩]

/-- Knight deltas, in the order of the local `KNIGHT_DELTAS` of `chess/rules.rs`. -/
def KNIGHT_DELTAS : List Coord :=
  [⟨2, 1⟩, ⟨2, -1⟩, ⟨-2, 1⟩, ⟨-2, -1⟩, ⟨1, 2⟩, ⟨1, -2⟩, ⟨-1, 2⟩, ⟨-1, -2⟩]

/-- `PieceKind::slide_dirs`. -/
def PieceKind.slideDirs : PieceKind → List Coord
  | .queen => QUEEN_DIRS
  | .rook => ROOK_DIRS
  | .bishop => BISHOP_DIRS
  | _ => []

/-- `PieceLayout` (`chess/layout.rs`): the ordered list of piece kinds plus the
optional white-king slot index.  The identical runs are recomputed from the
kind list where needed (`compute_runs` groups maximal runs of equal kinds). -/
structure PieceLayout where
  kinds : List PieceKind
  whiteKingIndex : Option Nat
deriving DecidableEq, Repr

/-- `PieceLayout::from_counts`: kinds in the fixed order `K?, Q…, R…, B…, N…`,
white-king index 0 when present. -/
def PieceLayout.fromCounts (whiteKing : Bool) (queens rooks bishops knights : Nat) :
    PieceLayout :=
  { kinds :=
      (if whiteKing then [PieceKind.king] else []) ++
        List.replicate queens PieceKind.queen ++
        List.replicate rooks PieceKind.rook ++
        List.replicate bishops PieceKind.bishop ++
        List.replicate knights PieceKind.knight
    whiteKingIndex := if whiteKing then some 0 else none }

/-- A position is the list of squares of the layout's pieces, in slot order
(`core/position.rs`; the fixed-capacity array is modelled by a list of length
`layout.kinds.length`). -/
abbrev Pos := List Square

/-- Insertion step for sorting squares under the total `Ord` of `core/square.rs`. -/
def insertSquare (a : Square) : List Square → List Square
  | [] => [a]
  | b :: rest => if squareLE a b then a :: b :: rest else b :: insertSquare a rest

/-- Sort a list of squares ascending under the square order.  `slice::sort`
produces the same (unique) sorted result because the order is total and
antisymmetric. -/
def sortSquares : List Square → List Square
  | [] => []
  | a :: rest => insertSquare a (sortSquares rest)

/-- Length of `List.dropWhile` never exceeds the input length (helper for the
run-splitting recursion). -/
theorem length_dropWhile_le {α : Type _} (p : α → Bool) (l : List α) :
    (l.dropWhile p).length ≤ l.length := by
  induction l with
  | nil => simp [List.dropWhile]
  | cons a rest ih =>
    by_cases h : p a
    · simpa [List.dropWhile, h] using Nat.le_succ_of_le ih
    · simp [List.dropWhile, h]

/-- `Position::canonicalize`: within each maximal run of identical kinds, sort
the squares ascending (`compute_runs` + per-run `sort`). -/
def canonicalize (kinds : List PieceKind) (sqs : List Square) : List Square :=
  match kinds with
  | [] => sqs
  | k :: ks =>
    let runLen := 1 + (ks.takeWhile (fun x => x = k)).length
    sortSquares (sqs.take runLen) ++
      canonicalize (ks.dropWhile (fun x => x = k)) (sqs.drop runLen)
termination_by kinds.length
decreasing_by
  exact Nat.lt_succ_of_le (length_dropWhile_le _ _)

/-- `Position::is_occupied_except`: some slot other than `except` holds this
(non-`NONE`) square. -/
def occupiedExcept (pos : Pos) (sq : Square) (except : Nat) : Bool :=
  (List.range pos.length).any fun i =>
    i ≠ except && (pos.getD i none).isSome && pos.getD i none = sq

/-! ## Rules (`chess/rules.rs`) -/

/-- `struct Rules { layout, move_bound }`. `Rules::new` asserts `move_bound >= 1`;
that assertion-class precondition appears as a hypothesis where needed. -/
structure Rules where
  layout : PieceLayout
  moveBound : Int
deriving Repr

/-- The origin/duplicate scan of `Rules::is_legal_position`: walk the squares,
fail on a non-`NONE` square at the origin or equal to one already seen. -/
def legalScan : List Square → List Square → Bool
  | _, [] => true
  | seen, none :: rest => legalScan seen rest
  | seen, some c :: rest =>
    if c = Coord.origin then false
    else if seen.any (fun s => s = some c) then false
    else legalScan (some c :: seen) rest

/-- `Rules::is_legal_position`: no piece on the origin, no duplicated squares,
and a present white king is not adjacent (Chebyshev ≤ 1) to the origin. -/
def Rules.is_legal_position (r : Rules) (pos : Pos) : Bool :=
  legalScan [] pos &&
    (match r.layout.whiteKingIndex with
     | some k =>
       match pos.getD k none with
       | some c => decide (1 < c.cheb)
       | none => true
     | none => true)

/-- `normalized_dir_and_distance`: unit direction and distance of a rook- or
bishop-aligned vector. -/
def normalized_dir_and_distance (v : Coord) : Option (Coord × Int) :=
  if v.x = 0 ∧ v.y ≠ 0 then some (⟨0, v.y.sign⟩, v.y.natAbs)
  else if v.y = 0 ∧ v.x ≠ 0 then some (⟨v.x.sign, 0⟩, v.x.natAbs)
  else if v.x ≠ 0 ∧ v.y ≠ 0 ∧ v.x.natAbs = v.y.natAbs then
    some (⟨v.x.sign, v.y.sign⟩, v.x.natAbs)
  else none

/-- `scalar_along_dir_if_aligned`: the scalar `s` with `v = s·dir`, when it
exists.  Rust's `/` on `i32` truncates toward zero (`Int.tdiv`); the exactness
check makes the result independent of the rounding mode. -/
def scalar_along_dir_if_aligned (v dir : Coord) : Option Int :=
  if dir.x = 0 then
    if v.x ≠ 0 then none
    else if dir.y = 0 then none
    else
      let s := Int.tdiv v.y dir.y
      if s * dir.y = v.y then some s else none
  else
    let s := Int.tdiv v.x dir.x
    if s * dir.x = v.x ∧ s * dir.y = v.y then some s else none

/-- `Rules::rider_attacks`: a slider on `frm` attacks `target` along one of
`dirs` when the vector is aligned and no present piece lies strictly between. -/
def rider_attacks (frm target : Coord) (dirs : List Coord) (pos : Pos) : Bool :=
  let v := target.sub frm
  if v = Coord.origin then false
  else
    match normalized_dir_and_distance v with
    | none => false
    | some (dir, dist) =>
      if dirs.any (fun d => d = dir) then
        pos.all fun osq =>
          match osq with
          | none => true
          | some o =>
            if o = frm then true
            else
              match scalar_along_dir_if_aligned (o.sub frm) dir with
              | some s => decide (¬(0 < s ∧ s < dist))
              | none => true
      else false

/-- `Rules::piece_attacks`. -/
def piece_attacks (k : PieceKind) (frm target : Coord) (pos : Pos) : Bool :=
  match k with
  | .king => decide ((target.sub frm).cheb = 1)
  | .knight =>
    let d := target.sub frm
    decide ((d.x.natAbs = 2 ∧ d.y.natAbs = 1) ∨ (d.x.natAbs = 1 ∧ d.y.natAbs = 2))
  | .rook => rider_attacks frm target ROOK_DIRS pos
  | .bishop => rider_attacks frm target BISHOP_DIRS pos
  | .queen => rider_attacks frm target QUEEN_DIRS pos

/-- `Rules::is_attacked`: some present piece attacks the target square. -/
def Rules.is_attacked (r : Rules) (target : Coord) (pos : Pos) : Bool :=
  (r.layout.kinds.zip pos).any fun kp =>
    match kp.2 with
    | none => false
    | some c => piece_attacks kp.1 c target pos

/-- The re-centring step of `black_moves_with_delta`: every non-`NONE` square
shifts by `−δ`; a piece standing on `δ` becomes `NONE` (captured). -/
def recenter (pos : Pos) (δ : Coord) : Pos :=
  pos.map fun sq =>
    match sq with
    | none => none
    | some c => if c = δ then none else some (c.sub δ)

/-- The skip guard of `black_moves_with_delta`: the white-king slot is present
and holds exactly `δ` (the black king cannot capture the white king). -/
def whiteKingAt (r : Rules) (pos : Pos) (δ : Coord) : Bool :=
  match r.layout.whiteKingIndex with
  | some k =>
    match pos.getD k none with
    | some c => c = δ
    | none => false
  | none => false

/-- `Rules::black_moves_with_delta`: for each of the 8 king steps, skip a
white-king capture, re-centre and canonicalise, and keep the step iff the
result is legal and the origin is not attacked in it. -/
def Rules.black_moves_with_delta (r : Rules) (pos : Pos) : List (Coord × Pos) :=
  KING_STEPS.filterMap fun δ =>
    if whiteKingAt r pos δ then none
    else
      let next := canonicalize r.layout.kinds (recenter pos δ)
      if r.is_legal_position next then
        if r.is_attacked Coord.origin next then none else some (δ, next)
      else none

/-- `Rules::black_moves`. -/
def Rules.black_moves (r : Rules) (pos : Pos) : List Pos :=
  (r.black_moves_with_delta pos).map (fun p => p.2)

/-- The slider walk of `Rules::white_moves`: steps `step, step+1, …` along
`dir` while fuel lasts, stopping at the origin (the black king blocks) or at a
square occupied by another white piece; each legal canonicalised stop is
emitted.  Called with `fuel = move_bound.toNat` and `step = 1`, this is the
`for step in 1..=move_bound` loop with its `break`s. -/
def slider_walk (r : Rules) (pos : Pos) (i : Nat) (c dir : Coord) :
    Nat → Int → List Pos
  | 0, _ => []
  | fuel + 1, step =>
    let dst := c.add (dir.smul step)
    if dst = Coord.origin then []
    else if occupiedExcept pos (some dst) i then []
    else
      let next := canonicalize r.layout.kinds (pos.set i (some dst))
      (if r.is_legal_position next then [next] else []) ++
        slider_walk r pos i c dir fuel (step + 1)

/-- The white-king branch of `Rules::white_moves`. -/
def king_moves (r : Rules) (pos : Pos) (i : Nat) (c : Coord) : List Pos :=
  KING_STEPS.filterMap fun d =>
    let dst := c.add d
    if dst = Coord.origin then none
    else if dst.cheb ≤ 1 then none
    else if occupiedExcept pos (some dst) i then none
    else
      let next := canonicalize r.layout.kinds (pos.set i (some dst))
      if r.is_legal_position next then some next else none

/-- The knight branch of `Rules::white_moves`. -/
def knight_moves (r : Rules) (pos : Pos) (i : Nat) (c : Coord) : List Pos :=
  KNIGHT_DELTAS.filterMap fun d =>
    let dst := c.add d
    if dst = Coord.origin then none
    else if occupiedExcept pos (some dst) i then none
    else
      let next := canonicalize r.layout.kinds (pos.set i (some dst))
      if r.is_legal_position next then some next else none

/-- The per-piece body of the `for i in 0..pos.count()` loop of
`Rules::white_moves` (`NONE` squares are skipped). -/
def piece_moves_at (r : Rules) (pos : Pos) (i : Nat) : List Pos :=
  match r.layout.kinds.get? i, pos.getD i none with
  | some k, some c =>
    match k with
    | .king => king_moves r pos i c
    | .knight => knight_moves r pos i c
    | _ => k.slideDirs.flatMap fun dir => slider_walk r pos i c dir r.moveBound.toNat 1
  | _, _ => []

/-- `Rules::white_moves`: an optional pass followed by every present piece's
moves, pieces in slot order. -/
def Rules.white_moves (r : Rules) (pos : Pos) (allowPass : Bool) : List Pos :=
  (if allowPass then [pos] else []) ++
    (List.range pos.length).flatMap (piece_moves_at r pos)

/-- `Rules::is_checkmate`: origin attacked and no legal black move. -/
def Rules.is_checkmate (r : Rules) (pos : Pos) : Bool :=
  if r.is_attacked Coord.origin pos then (r.black_moves pos).isEmpty else false

/-- `Rules::is_stalemate`: origin not attacked and no legal black move. -/
def Rules.is_stalemate (r : Rules) (pos : Pos) : Bool :=
  if r.is_attacked Coord.origin pos then false else (r.black_moves pos).isEmpty

/-! ## Bounded enumeration (`chess/bounds.rs`) -/

/-- `compute_runs` of `chess/layout.rs`, with each run given as its kind and
length (runs are maximal ranges of equal consecutive kinds). -/
def computeRuns : List PieceKind → List (PieceKind × Nat)
  | [] => []
  | k :: ks =>
    (k, 1 + (ks.takeWhile (fun x => x = k)).length) ::
      computeRuns (ks.dropWhile (fun x => x = k))
termination_by kinds => kinds.length
decreasing_by
  exact Nat.lt_succ_of_le (length_dropWhile_le _ _)

/-- The inclusive integer range `lo..=hi` as a list. -/
def intRange (lo hi : Int) : List Int :=
  (List.range (hi + 1 - lo).toNat).map fun k => lo + (k : Int)

/-- `squares_in_linf_ball`: all squares with `|x|,|y| <= bound` except the
origin, sorted ascending under the square order. -/
def squares_in_linf_ball (bound : Int) : List Square :=
  sortSquares <|
    (intRange (-bound) bound).flatMap fun x =>
      (intRange (-bound) bound).filterMap fun y =>
        if x = 0 ∧ y = 0 then none else some (some ⟨x, y⟩)

/-- `choose_k` of `chess/bounds.rs`: ordered `k`-combinations of the squares
satisfying `pred`, each paired with the remaining (unchosen) squares in their
original order; combinations are produced in the source's ascending-index
order (pick the head first, then skip it). -/
def combosWithRest (pred : Square → Bool) : Nat → List Square → List (List Square × List Square)
  | 0, l => [([], l)]
  | _ + 1, [] => []
  | k + 1, x :: xs =>
    (if pred x then (combosWithRest pred k xs).map (fun p => (x :: p.1, p.2)) else []) ++
      (combosWithRest pred (k + 1) xs).map (fun p => (p.1, x :: p.2))
termination_by _ l => l.length

/-- The recursive group filler `rec` of `enumerate_positions_in_bound`: for
each identical run in order, choose between `allow_captures ? 0 : len` and
`len` distinct squares from the available ones (ascending; white-king squares
must have Chebyshev norm > 1), fill the run with `NONE`s then the chosen
squares, and recurse on the remaining squares. -/
def enumRuns (allowCaptures : Bool) : List (PieceKind × Nat) → List Square → List (List Square)
  | [], _ => [[]]
  | (k, len) :: rest, avail =>
    let pred : Square → Bool := fun sq =>
      match sq with
      | some c => if k = PieceKind.king then decide (1 < c.cheb) else true
      | none => true
    let counts : List Nat := if allowCaptures then List.range (len + 1) else [len]
    counts.flatMap fun cnt =>
      (combosWithRest pred cnt avail).flatMap fun chosenRest =>
        (enumRuns allowCaptures rest chosenRest.2).map fun tail =>
          (List.replicate (len - cnt) none ++ chosenRest.1) ++ tail

/-- `enumerate_positions_in_bound`: every canonical position whose non-captured
pieces lie within the L∞ bound (the final `canonicalize` call mirrors the
source's invariant check). -/
def enumerate_positions_in_bound (layout : PieceLayout) (bound : Int)
    (allowCaptures : Bool) : List Pos :=
  (enumRuns allowCaptures (computeRuns layout.kinds) (squares_in_linf_ball bound)).map
    fun sqs => canonicalize layout.kinds sqs

/-- `count_checkmates_in_bound` of `search/mates.rs`: count the enumerated
positions (no captures) that are checkmates under the unbounded rules. -/
def count_checkmates_in_bound (r : Rules) (bound : Int) : Nat :=
  ((enumerate_positions_in_bound r.layout bound false).filter
    fun p => r.is_checkmate p).length

/-! ## Fuel lemmas for the fixed-point loops

The Rust solvers run `loop { …; if nothing changed { break } }`.  We model
them by iterating the loop body with enough fuel; the lemmas below show that
the iterate is a genuine fixed point of the body. -/

/-- A loop body that strictly decreases a measure whenever it changes its
argument reaches a fixed point within `m s + 1` iterations. -/
theorem iterate_fixed_of_dec {α : Type _} (f : α → α) (m : α → Nat)
    (hdec : ∀ a, f a ≠ a → m (f a) < m a) (s : α) :
    f (f^[m s + 1] s) = f^[m s + 1] s := by
  have key : ∀ k : Nat, f (f^[k] s) = f^[k] s ∨ m (f^[k] s) + k ≤ m s := by
    intro k
    induction k with
    | zero => right; simp
    | succ k ih =>
      rcases ih with h | h
      · left
        rw [Function.iterate_succ_apply', h, h]
      · by_cases hfix : f (f^[k] s) = f^[k] s
        · left
          rw [Function.iterate_succ_apply', hfix, hfix]
        · right
          have hlt := hdec _ hfix
          rw [Function.iterate_succ_apply']
          omega
  rcases key (m s + 1) with h | h
  · exact h
  · omega

/-- A loop body that strictly increases a measure whenever it changes its
argument, with the measure bounded by `N` along the orbit, reaches a fixed
point within `N + 1` iterations. -/
theorem iterate_fixed_of_inc {α : Type _} (f : α → α) (m : α → Nat) (s : α) (N : Nat)
    (hbound : ∀ k, m (f^[k] s) ≤ N)
    (hinc : ∀ a, f a ≠ a → m a < m (f a)) :
    f (f^[N + 1] s) = f^[N + 1] s := by
  have key : ∀ k : Nat, f (f^[k] s) = f^[k] s ∨ k ≤ m (f^[k] s) := by
    intro k
    induction k with
    | zero => right; simp
    | succ k ih =>
      rcases ih with h | h
      · left
        rw [Function.iterate_succ_apply', h, h]
      · by_cases hfix : f (f^[k] s) = f^[k] s
        · left
          rw [Function.iterate_succ_apply', hfix, hfix]
        · right
          have hlt := hinc _ hfix
          rw [Function.iterate_succ_apply']
          omega
  rcases key (N + 1) with h | h
  · exact h
  · have := hbound (N + 1)
    omega

/-! ## Trap solver (`search/trap.rs`)

`maximal_inescapable_trap` starts from a candidate set and repeatedly removes
every refuted state until no removal happens.  The model is parametric in the
move generators: `blackM`/`whiteM` stand for the scenario's
`legal_black_moves`/`legal_white_moves` (rules filtered by the laws); the
candidate set is the already-built initial set. -/

section TrapSolver

variable {σ : Type _} [DecidableEq σ]

/-- The refutation test inside the pruning scan: some legal black reply from
`t` has no legal white reply inside the current set. -/
def trapRefuted (blackM whiteM : σ → List σ) (T : Finset σ) (t : σ) : Bool :=
  (blackM t).any fun w => (whiteM w).all fun x => decide (x ∉ T)

/-- One iteration of the pruning loop: scan the whole current set against
itself, then remove every refuted state. -/
def trapPruneStep (blackM whiteM : σ → List σ) (T : Finset σ) : Finset σ :=
  T.filter fun t => trapRefuted blackM whiteM T t = false

/-- `maximal_inescapable_trap` (pruning phase): iterate the scan-and-remove
step until it no longer changes the set.  `T0.card + 1` iterations suffice
because the set strictly shrinks until the loop exits. -/
def maximal_inescapable_trap (blackM whiteM : σ → List σ) (T0 : Finset σ) : Finset σ :=
  (trapPruneStep blackM whiteM)^[T0.card + 1] T0

end TrapSolver

/-! ## Büchi solver (`search/buchi.rs`)

The bipartite game graph built by `compute_winning_region`: black nodes are
the trap states (indexed by position in `b_list`), white nodes are the states
reached by one legal black move (indexed in discovery order), and membership
vectors (`Vec<bool>`) are modelled by finite sets of indices. -/

/-- The index-level game graph of `compute_winning_region` (`struct BuchiGraph`
without the state lists). -/
structure BuchiGraph where
  nb : Nat
  nw : Nat
  bwSucc : List (List Nat)
  wbSucc : List (List Nat)
  acceptW : List Bool
deriving Repr

/-- `bw_succ[bi]`. -/
def BuchiGraph.bw (g : BuchiGraph) (bi : Nat) : List Nat := g.bwSucc.getD bi []

/-- `wb_succ[wi]`. -/
def BuchiGraph.wb (g : BuchiGraph) (wi : Nat) : List Nat := g.wbSucc.getD wi []

/-- `is_accept_w[wi]`. -/
def BuchiGraph.accept (g : BuchiGraph) (wi : Nat) : Bool := g.acceptW.getD wi false

/-- One `while changed` pass of `attractor_white`: first every white node of
`Z` with some attractor successor inside `Z` joins, then every black node of
`Z` whose successors inside `Z` all lie in the (updated) white part joins —
provided it has at least one successor inside `Z`. -/
def attrWhiteStep (g : BuchiGraph) (Zb Zw : Finset Nat)
    (A : Finset Nat × Finset Nat) : Finset Nat × Finset Nat :=
  let Aw' := A.2 ∪ Zw.filter fun wi => ∃ bi ∈ g.wb wi, bi ∈ Zb ∧ bi ∈ A.1
  let Ab' := A.1 ∪ Zb.filter fun bi =>
    (∃ wi ∈ g.bw bi, wi ∈ Zw) ∧ ∀ wi ∈ g.bw bi, wi ∈ Zw → wi ∈ Aw'
  (Ab', Aw')

/-- `attractor_white`: seed the white part with the accepting nodes of `Z`,
then saturate.  `|Zb| + |Zw| + 1` passes suffice because every pass that
changes anything strictly grows the attractor. -/
def attractor_white (g : BuchiGraph) (Zb Zw : Finset Nat) : Finset Nat × Finset Nat :=
  (attrWhiteStep g Zb Zw)^[Zb.card + Zw.card + 1]
    (∅, Zw.filter fun wi => g.accept wi = true)

/-- One `while changed` pass of `attractor_black` (player roles swapped:
black is existential, white universal). -/
def attrBlackStep (g : BuchiGraph) (Zb Zw : Finset Nat)
    (A : Finset Nat × Finset Nat) : Finset Nat × Finset Nat :=
  let Ab' := A.1 ∪ Zb.filter fun bi => ∃ wi ∈ g.bw bi, wi ∈ Zw ∧ wi ∈ A.2
  let Aw' := A.2 ∪ Zw.filter fun wi =>
    (∃ bi ∈ g.wb wi, bi ∈ Zb) ∧ ∀ bi ∈ g.wb wi, bi ∈ Zb → bi ∈ Ab'
  (Ab', Aw')

/-- `attractor_black`: seed with the target restricted to `Z`, then saturate. -/
def attractor_black (g : BuchiGraph) (Zb Zw targetB targetW : Finset Nat) :
    Finset Nat × Finset Nat :=
  (attrBlackStep g Zb Zw)^[Zb.card + Zw.card + 1]
    (Zb.filter (· ∈ targetB), Zw.filter (· ∈ targetW))

/-- One iteration of the subgame loop of `compute_winning_region`:
`Y = Attr_white(F) within Z`, then remove the black attractor of `Z \ Y`
from `Z`. -/
def zStep (g : BuchiGraph) (Z : Finset Nat × Finset Nat) : Finset Nat × Finset Nat :=
  let Y := attractor_white g Z.1 Z.2
  let X := attractor_black g Z.1 Z.2 (Z.1 \ Y.1) (Z.2 \ Y.2)
  (Z.1 \ X.1, Z.2 \ X.2)

/-- The subgame loop of `compute_winning_region`: start from all nodes and
iterate until no removal occurs. -/
def compute_winning_region (g : BuchiGraph) : Finset Nat × Finset Nat :=
  (zStep g)^[g.nb + g.nw + 1] (Finset.range g.nb, Finset.range g.nw)

section BuchiStates

variable {σ : Type _} [DecidableEq σ]

/-- First index of `s` in a list (the `FxHashMap` index built by insertion
order; total — callers only use it on members). -/
def idxOf (s : σ) : List σ → Nat
  | [] => 0
  | x :: r => if x = s then 0 else idxOf s r + 1

/-- The white-node discovery of `compute_winning_region`: walk the black
nodes in order, append each new state produced by a legal black move. -/
def discoverW (blackM : σ → List σ) (bList : List σ) : List σ :=
  bList.foldl
    (fun acc b => (blackM b).foldl (fun acc2 w => if w ∈ acc2 then acc2 else acc2 ++ [w]) acc)
    []

/-- Insertion step for sorting indices (`sort_unstable` on `Vec<usize>`). -/
def insertNat (a : Nat) : List Nat → List Nat
  | [] => [a]
  | b :: r => if a ≤ b then a :: b :: r else b :: insertNat a r

/-- Sort a list of indices ascending. -/
def sortNat : List Nat → List Nat
  | [] => []
  | a :: r => insertNat a (sortNat r)

/-- `Vec::dedup`: remove consecutive duplicates. -/
def dedupAdj : List Nat → List Nat
  | [] => []
  | [a] => [a]
  | a :: b :: r => if a = b then dedupAdj (b :: r) else a :: dedupAdj (b :: r)

/-- `sort_unstable` followed by `dedup`, as applied to every successor list. -/
def sortDedup (l : List Nat) : List Nat := dedupAdj (sortNat l)

/-- The graph-building phase of `compute_winning_region`, given the scenario's
legal move generators, the pass configuration and the trap's black-node list:
black→white edges are the legal black moves (as white-node indices), white→black
edges are the legal white moves that land back in the trap, and a white node is
accepting iff passing is globally enabled, the laws allow a pass there, and the
state itself is a trap black node. -/
def buildBuchiGraph (blackM whiteM : σ → List σ) (whiteCanPass : Bool)
    (allowPass : σ → Bool) (bList : List σ) : BuchiGraph × List σ :=
  let wList := discoverW blackM bList
  ({ nb := bList.length
     nw := wList.length
     bwSucc := bList.map fun b => sortDedup ((blackM b).map fun w => idxOf w wList)
     wbSucc := wList.map fun w =>
       sortDedup ((whiteM w).filterMap fun b => if b ∈ bList then some (idxOf b bList) else none)
     acceptW := wList.map fun w => whiteCanPass && allowPass w && decide (w ∈ bList) },
   wList)

/-- `tempo_trap_buchi`: solve the Büchi game and return the black states of the
final subgame (`extract_b_set`). -/
def tempo_trap_buchi (blackM whiteM : σ → List σ) (whiteCanPass : Bool)
    (allowPass : σ → Bool) (bList : List σ) : List σ :=
  let gw := buildBuchiGraph blackM whiteM whiteCanPass allowPass bList
  let Z := compute_winning_region gw.1
  (List.range bList.length).filterMap fun bi => if bi ∈ Z.1 then bList.get? bi else none

end BuchiStates

/-! ## Forced-mate solver (`search/forced_mate.rs`)

The bounded-universe reachability attractor.  The worklist algorithm with
per-black-node counters (`remaining_nonwin_w_succ`) computes the least set
closed under: a white node wins as soon as some in-universe successor wins; a
black node wins when it has no escape move, at least one in-universe reply,
and all of its in-universe replies win (the counter `|B→U edges| + escape`
reaches zero exactly then, since an escape pseudo-successor never wins).  We
model it as the equivalent round-based saturation of those two rules. -/

/-- The index-level move graph built by `forced_mate_bounded` over the
universe `placements`. -/
structure MateGraph where
  n : Nat
  bwSucc : List (List Nat)
  wbSucc : List (List Nat)
  escapeL : List Bool
  inCheckL : List Bool
deriving Repr

/-- `bw_succ[bi]` (in-universe black replies). -/
def MateGraph.bw (g : MateGraph) (bi : Nat) : List Nat := g.bwSucc.getD bi []

/-- `wb_succ[wi]` (in-universe white replies). -/
def MateGraph.wb (g : MateGraph) (wi : Nat) : List Nat := g.wbSucc.getD wi []

/-- `black_has_escape[bi]`. -/
def MateGraph.esc (g : MateGraph) (bi : Nat) : Bool := g.escapeL.getD bi false

/-- `rules.is_attacked(ORIGIN, placements[bi])`. -/
def MateGraph.chk (g : MateGraph) (bi : Nat) : Bool := g.inCheckL.getD bi false

section ForcedMate

variable {σ : Type _} [DecidableEq σ]

/-- The edge/flag construction of `forced_mate_bounded`: a legal black move
with no index in the universe sets the escape flag, moves inside the universe
become edges; white moves outside the universe are ignored. -/
def buildMateGraph (uni : List σ) (blackM whiteM : σ → List σ) (inCheck : σ → Bool) :
    MateGraph :=
  { n := uni.length
    bwSucc := uni.map fun p =>
      sortDedup ((blackM p).filterMap fun w => if w ∈ uni then some (idxOf w uni) else none)
    wbSucc := uni.map fun p =>
      sortDedup ((whiteM p).filterMap fun b => if b ∈ uni then some (idxOf b uni) else none)
    escapeL := uni.map fun p => (blackM p).any fun w => decide (w ∉ uni)
    inCheckL := uni.map inCheck }

/-- The mate terminals seeding the attractor: no escape, no in-universe black
reply, and origin attacked. -/
def mateSeeds (g : MateGraph) : Finset Nat :=
  (Finset.range g.n).filter fun bi => g.esc bi = false ∧ g.bw bi = [] ∧ g.chk bi = true

/-- One saturation round of the mate attractor: white nodes with a winning
black successor win; black nodes with no escape, at least one in-universe
reply, and only winning replies win. -/
def mateStep (g : MateGraph) (W : Finset Nat × Finset Nat) : Finset Nat × Finset Nat :=
  let Ww' := W.2 ∪ (Finset.range g.n).filter fun wi => ∃ bi ∈ g.wb wi, bi ∈ W.1
  let Wb' := W.1 ∪ (Finset.range g.n).filter fun bi =>
    g.esc bi = false ∧ g.bw bi ≠ [] ∧ ∀ wi ∈ g.bw bi, wi ∈ Ww'
  (Wb', Ww')

/-- The winning black-node index set of `forced_mate_bounded`. -/
def mateWinning (g : MateGraph) : Finset Nat × Finset Nat :=
  (mateStep g)^[g.n + g.n + 1] (mateSeeds g, ∅)

/-- `forced_mate_bounded`'s `winning_btm`: the universe states whose index is
a winning black node. -/
def forced_mate_winning (uni : List σ) (blackM whiteM : σ → List σ)
    (inCheck : σ → Bool) : List σ :=
  let g := buildMateGraph uni blackM whiteM inCheck
  let W := mateWinning g
  (List.range uni.length).filterMap fun bi => if bi ∈ W.1 then uni.get? bi else none

end ForcedMate

/-! ## Resource tracker (`search/resources.rs`, `scenario/mod.rs`) -/

/-- `u64::MAX`, the saturation point of `u64::saturating_add`. -/
def U64_MAX : Nat := 2 ^ 64 - 1

/-- `u64::saturating_add`. -/
def satAdd64 (a b : Nat) : Nat := min (a + b) U64_MAX

/-- `ResourceCounts`: the running counters (all `u64`). -/
structure ResourceCounts where
  states : Nat
  edges : Nat
  cache_entries : Nat
  cached_moves : Nat
  runtime_steps : Nat
deriving DecidableEq, Repr

/-- `ResourceLimits`: the configured budgets. -/
structure ResourceLimits where
  max_states : Nat
  max_edges : Nat
  max_cache_entries : Nat
  max_cached_moves : Nat
  max_runtime_steps : Nat
deriving DecidableEq, Repr

/-- `SearchError` (the variants the claims mention). -/
inductive SearchError where
  | invalidScenario (reason : String)
  | limitExceeded (stage metric : String) (limit observed : Nat) (counts : ResourceCounts)
deriving DecidableEq, Repr

/-- `ResourceTracker`. -/
structure ResourceTracker where
  limits : ResourceLimits
  counts : ResourceCounts
deriving DecidableEq, Repr

/-- The private generic `ResourceTracker::bump`: saturating-add the delta into
the chosen counter, then fail iff the post-increment value exceeds the limit;
the error snapshots the already-updated counters.  The `&mut self` update is
modelled by returning the updated tracker alongside the result. -/
def ResourceTracker.bump (t : ResourceTracker) (stage metric : String)
    (delta limit : Nat) (get : ResourceCounts → Nat)
    (set : ResourceCounts → Nat → ResourceCounts) :
    ResourceTracker × Except SearchError Unit :=
  let observed := satAdd64 (get t.counts) delta
  let counts' := set t.counts observed
  let t' := { t with counts := counts' }
  if limit < observed then
    (t', .error (.limitExceeded stage metric limit observed counts'))
  else (t', .ok ())

/-- `ResourceTracker::bump_states`. -/
def ResourceTracker.bump_states (t : ResourceTracker) (stage : String) (delta : Nat) :
    ResourceTracker × Except SearchError Unit :=
  t.bump stage "states" delta t.limits.max_states (fun c => c.states)
    (fun c v => { c with states := v })

/-- `ResourceTracker::bump_edges`. -/
def ResourceTracker.bump_edges (t : ResourceTracker) (stage : String) (delta : Nat) :
    ResourceTracker × Except SearchError Unit :=
  t.bump stage "edges" delta t.limits.max_edges (fun c => c.edges)
    (fun c v => { c with edges := v })

/-- `ResourceTracker::bump_cache_entries`. -/
def ResourceTracker.bump_cache_entries (t : ResourceTracker) (stage : String) (delta : Nat) :
    ResourceTracker × Except SearchError Unit :=
  t.bump stage "cache_entries" delta t.limits.max_cache_entries (fun c => c.cache_entries)
    (fun c v => { c with cache_entries := v })

/-- `ResourceTracker::bump_cached_moves`. -/
def ResourceTracker.bump_cached_moves (t : ResourceTracker) (stage : String) (delta : Nat) :
    ResourceTracker × Except SearchError Unit :=
  t.bump stage "cached_moves" delta t.limits.max_cached_moves (fun c => c.cached_moves)
    (fun c v => { c with cached_moves := v })

/-- `ResourceTracker::bump_steps`. -/
def ResourceTracker.bump_steps (t : ResourceTracker) (stage : String) (delta : Nat) :
    ResourceTracker × Except SearchError Unit :=
  t.bump stage "runtime_steps" delta t.limits.max_runtime_steps (fun c => c.runtime_steps)
    (fun c v => { c with runtime_steps := v })

/-! ## Bundle binary format (`solution/mod.rs`)

`write_data`/`read_data` stream little-endian integers through a file; we
model the byte stream as a list of byte values. -/

/-- `u32::to_le_bytes`. -/
def u32Bytes (n : Nat) : List Nat :=
  [n % 256, n / 256 % 256, n / 256 ^ 2 % 256, n / 256 ^ 3 % 256]

/-- `i32::to_le_bytes` (two's complement). -/
def i32Bytes (v : Int) : List Nat := u32Bytes (v % 2 ^ 32).toNat

/-- `u64`-style little-endian bytes of a value already reduced mod `2^64`. -/
def u64Bytes (n : Nat) : List Nat :=
  [n % 256, n / 256 % 256, n / 256 ^ 2 % 256, n / 256 ^ 3 % 256,
   n / 256 ^ 4 % 256, n / 256 ^ 5 % 256, n / 256 ^ 6 % 256, n / 256 ^ 7 % 256]

/-- `i64::to_le_bytes` (two's complement). -/
def i64Bytes (v : Int) : List Nat := u64Bytes (v % 2 ^ 64).toNat

/-- `DATA_MAGIC = b"ICHSOL01"`. -/
def DATA_MAGIC : List Nat := [73, 67, 72, 83, 79, 76, 48, 49]

/-- `read_u32`: consume 4 bytes, little-endian. -/
def readU32 : List Nat → Option (Nat × List Nat)
  | b0 :: b1 :: b2 :: b3 :: rest =>
    some (b0 + 256 * b1 + 256 ^ 2 * b2 + 256 ^ 3 * b3, rest)
  | _ => none

/-- `read_i32`: consume 4 bytes, little-endian, two's complement. -/
def readI32 (bs : List Nat) : Option (Int × List Nat) :=
  (readU32 bs).map fun p => (toSigned 32 p.1, p.2)

/-- `read_i64`: consume 8 bytes, little-endian, two's complement. -/
def readI64 : List Nat → Option (Int × List Nat)
  | b0 :: b1 :: b2 :: b3 :: b4 :: b5 :: b6 :: b7 :: rest =>
    some (toSigned 64
      (b0 + 256 * b1 + 256 ^ 2 * b2 + 256 ^ 3 * b3 +
        256 ^ 4 * b4 + 256 ^ 5 * b5 + 256 ^ 6 * b6 + 256 ^ 7 * b7), rest)
  | _ => none

/-- One state record of the bundle's state table: `abs_king` as two `i32`s and
the `piece_count` packed squares as raw `i64`s. -/
structure SolState where
  kingX : Int
  kingY : Int
  squares : List Int
deriving DecidableEq, Repr

/-- `SolutionData`: the five tables of the dense binary blob. -/
structure SolutionData where
  states : List SolState
  trap_set_ids : List Nat
  tempo_set_ids : List Nat
  transitions : List (Nat × List Nat)
  strategy_trap : List (Nat × Nat)
  strategy_tempo : List (Nat × Nat)
deriving DecidableEq, Repr

/-- `write_data`: magic, format version, piece count, then the length-prefixed
state table and id/transition/strategy tables, all integers little-endian. -/
def write_data (formatVersion pieceCount : Nat) (d : SolutionData) : List Nat :=
  DATA_MAGIC ++ u32Bytes formatVersion ++ u32Bytes pieceCount ++
    u32Bytes d.states.length ++
    (d.states.flatMap fun s => i32Bytes s.kingX ++ i32Bytes s.kingY ++
      s.squares.flatMap i64Bytes) ++
    u32Bytes d.trap_set_ids.length ++ d.trap_set_ids.flatMap u32Bytes ++
    u32Bytes d.tempo_set_ids.length ++ d.tempo_set_ids.flatMap u32Bytes ++
    u32Bytes d.transitions.length ++
    (d.transitions.flatMap fun t => u32Bytes t.1 ++ t.2.flatMap u32Bytes) ++
    u32Bytes d.strategy_trap.length ++
    d.strategy_trap.flatMap (fun p => u32Bytes p.1 ++ u32Bytes p.2) ++
    u32Bytes d.strategy_tempo.length ++
    d.strategy_tempo.flatMap (fun p => u32Bytes p.1 ++ u32Bytes p.2)

/-- The raw-square loop of `read_data`'s state parser. -/
def readRaws : Nat → List Nat → Option (List Int × List Nat)
  | 0, bs => some ([], bs)
  | n + 1, bs => do
    let v ← readI64 bs
    let rest ← readRaws n v.2
    some (v.1 :: rest.1, rest.2)

/-- The state-table loop of `read_data`. -/
def readStates (pieceCount : Nat) : Nat → List Nat → Option (List SolState × List Nat)
  | 0, bs => some ([], bs)
  | n + 1, bs => do
    let x ← readI32 bs
    let y ← readI32 x.2
    let sq ← readRaws pieceCount y.2
    let rest ← readStates pieceCount n sq.2
    some (⟨x.1, y.1, sq.1⟩ :: rest.1, rest.2)

/-- A length-prefixed-free loop of `read_u32`s. -/
def readU32List : Nat → List Nat → Option (List Nat × List Nat)
  | 0, bs => some ([], bs)
  | n + 1, bs => do
    let v ← readU32 bs
    let rest ← readU32List n v.2
    some (v.1 :: rest.1, rest.2)

/-- The transition-table loop of `read_data`: a black-state id plus the fixed
array of 8 direction entries. -/
def readTransitions : Nat → List Nat → Option (List (Nat × List Nat) × List Nat)
  | 0, bs => some ([], bs)
  | n + 1, bs => do
    let sid ← readU32 bs
    let next ← readU32List 8 sid.2
    let rest ← readTransitions n next.2
    some ((sid.1, next.1) :: rest.1, rest.2)

/-- The strategy-table loop of `read_data`: pairs of u32 ids. -/
def readPairs : Nat → List Nat → Option (List (Nat × Nat) × List Nat)
  | 0, bs => some ([], bs)
  | n + 1, bs => do
    let w ← readU32 bs
    let b ← readU32 w.2
    let rest ← readPairs n b.2
    some ((w.1, b.1) :: rest.1, rest.2)

/-- Lift a byte-reader result into the error monad: a failed `read_exact`
becomes an I/O error, as in the Rust `?` operator. -/
def liftRead {α : Type} (o : Option α) : Except String α :=
  match o with
  | some a => Except.ok a
  | none => Except.error "io: failed to fill whole buffer"

/-- `read_data`: validate the magic bytes, the format version (must be 1) and
the piece count against the manifest, then parse the five tables.  Truncated
input surfaces as an I/O error. -/
def read_data (bytes : List Nat) (pieceCount : Nat) : Except String SolutionData := do
  if (bytes.take 8).length ≠ 8 then
    throw "io: failed to fill whole buffer"
  if bytes.take 8 ≠ DATA_MAGIC then
    throw "solution data.bin has wrong magic bytes"
  let v ← liftRead (readU32 (bytes.drop 8))
  if v.1 ≠ 1 then
    throw "solution data.bin version is not supported"
  let fpc ← liftRead (readU32 v.2)
  if fpc.1 ≠ pieceCount then
    throw "solution data.bin piece_count mismatches manifest"
  let sl ← liftRead (readU32 fpc.2)
  let states ← liftRead (readStates pieceCount sl.1 sl.2)
  let tl ← liftRead (readU32 states.2)
  let trap ← liftRead (readU32List tl.1 tl.2)
  let pl ← liftRead (readU32 trap.2)
  let tempo ← liftRead (readU32List pl.1 pl.2)
  let nl ← liftRead (readU32 tempo.2)
  let transitions ← liftRead (readTransitions nl.1 nl.2)
  let s1l ← liftRead (readU32 transitions.2)
  let strat1 ← liftRead (readPairs s1l.1 s1l.2)
  let s2l ← liftRead (readU32 strat1.2)
  let strat2 ← liftRead (readPairs s2l.1 s2l.2)
  return ⟨states.1, trap.1, tempo.1, transitions.1, strat1.1, strat2.1⟩

/-! ## Claim theorems -/

/-- Helper: the unsigned 64-bit pattern of `toSigned 64 n` is `n` itself. -/
theorem toSigned64_emod64_toNat (n : Nat) (h : n < 2 ^ 64) :
    (toSigned 64 n % 2 ^ 64).toNat = n := by
  unfold toSigned
  norm_num at h ⊢
  split_ifs with h1 <;> omega

/-- Helper: the low 32 bits of `toSigned 64 n` are `n % 2^32`. -/
theorem toSigned64_emod32_toNat (n : Nat) :
    (toSigned 64 n % 2 ^ 32).toNat = n % 2 ^ 32 := by
  unfold toSigned
  norm_num
  split_ifs with h1 <;> omega

/-- C10: for every `i32` coordinate `(x, y)`, `Square::from_coord` round-trips
through `Square::coord` (so the packing is injective), and the packed value
equals the `NONE` sentinel `i64::MIN` exactly for the single coordinate
`(i32::MIN, 0)` — that coordinate is reported as `is_none`. -/
theorem square_from_coord_roundtrip (x y : Int)
    (hx1 : -(2 ^ 31) ≤ x) (hx2 : x < 2 ^ 31) (hy1 : -(2 ^ 31) ≤ y) (hy2 : y < 2 ^ 31) :
    unpackX (packSquare x y) = x ∧ unpackY (packSquare x y) = y ∧
      (isNoneRaw (packSquare x y) = true ↔ x = -(2 ^ 31) ∧ y = 0) := by
  have hAlt : (x % 2 ^ 32).toNat < 2 ^ 32 := by norm_num; omega
  have hBlt : (y % 2 ^ 32).toNat < 2 ^ 32 := by norm_num; omega
  have hN : (x % 2 ^ 32).toNat * 2 ^ 32 + (y % 2 ^ 32).toNat < 2 ^ 64 := by
    norm_num at hAlt hBlt ⊢; omega
  refine ⟨?_, ?_, ?_⟩
  · unfold unpackX packSquare
    rw [toSigned64_emod64_toNat _ hN]
    have hdiv : ((x % 2 ^ 32).toNat * 2 ^ 32 + (y % 2 ^ 32).toNat) / 2 ^ 32
        = (x % 2 ^ 32).toNat := by norm_num at hBlt ⊢; omega
    rw [hdiv]
    unfold toSigned
    norm_num
    split_ifs with h1 <;> omega
  · unfold unpackY packSquare
    rw [toSigned64_emod32_toNat]
    have hmod : ((x % 2 ^ 32).toNat * 2 ^ 32 + (y % 2 ^ 32).toNat) % 2 ^ 32
        = (y % 2 ^ 32).toNat := by norm_num at hBlt ⊢; omega
    rw [hmod]
    unfold toSigned
    norm_num
    split_ifs with h1 <;> omega
  · unfold isNoneRaw packSquare noneRaw toSigned
    rw [decide_eq_true_eq]
    norm_num
    split_ifs with h1 <;> constructor <;> intro h <;> omega

/-- C10 witness: the round trip at the concrete coordinate `(3, -5)`. -/
theorem square_from_coord_roundtrip_witness :
    unpackX (packSquare 3 (-5)) = 3 ∧ unpackY (packSquare 3 (-5)) = -5 ∧
      (isNoneRaw (packSquare 3 (-5)) = true ↔ (3 : Int) = -(2 ^ 31) ∧ (-5 : Int) = 0) :=
  square_from_coord_roundtrip 3 (-5) (by norm_num) (by norm_num) (by norm_num) (by norm_num)

/-- C9: every `ResourceTracker` bump operation returns `Ok` exactly when the
saturating post-increment counter does not exceed the configured limit, and
otherwise returns a `LimitExceeded` error carrying the caller's stage, the
counter's metric name, the configured limit, the post-increment observed
value, and a snapshot of all (updated) counters. -/
theorem resource_bump_spec (t : ResourceTracker) (stage : String) (δ : Nat) :
    (((t.bump_states stage δ).2 = Except.ok () ↔
        satAdd64 t.counts.states δ ≤ t.limits.max_states) ∧
      (t.limits.max_states < satAdd64 t.counts.states δ →
        (t.bump_states stage δ).2 = Except.error (.limitExceeded stage "states"
          t.limits.max_states (satAdd64 t.counts.states δ)
          { t.counts with states := satAdd64 t.counts.states δ }))) ∧
    (((t.bump_edges stage δ).2 = Except.ok () ↔
        satAdd64 t.counts.edges δ ≤ t.limits.max_edges) ∧
      (t.limits.max_edges < satAdd64 t.counts.edges δ →
        (t.bump_edges stage δ).2 = Except.error (.limitExceeded stage "edges"
          t.limits.max_edges (satAdd64 t.counts.edges δ)
          { t.counts with edges := satAdd64 t.counts.edges δ }))) ∧
    (((t.bump_cache_entries stage δ).2 = Except.ok () ↔
        satAdd64 t.counts.cache_entries δ ≤ t.limits.max_cache_entries) ∧
      (t.limits.max_cache_entries < satAdd64 t.counts.cache_entries δ →
        (t.bump_cache_entries stage δ).2 = Except.error (.limitExceeded stage "cache_entries"
          t.limits.max_cache_entries (satAdd64 t.counts.cache_entries δ)
          { t.counts with cache_entries := satAdd64 t.counts.cache_entries δ }))) ∧
    (((t.bump_cached_moves stage δ).2 = Except.ok () ↔
        satAdd64 t.counts.cached_moves δ ≤ t.limits.max_cached_moves) ∧
      (t.limits.max_cached_moves < satAdd64 t.counts.cached_moves δ →
        (t.bump_cached_moves stage δ).2 = Except.error (.limitExceeded stage "cached_moves"
          t.limits.max_cached_moves (satAdd64 t.counts.cached_moves δ)
          { t.counts with cached_moves := satAdd64 t.counts.cached_moves δ }))) ∧
    (((t.bump_steps stage δ).2 = Except.ok () ↔
        satAdd64 t.counts.runtime_steps δ ≤ t.limits.max_runtime_steps) ∧
      (t.limits.max_runtime_steps < satAdd64 t.counts.runtime_steps δ →
        (t.bump_steps stage δ).2 = Except.error (.limitExceeded stage "runtime_steps"
          t.limits.max_runtime_steps (satAdd64 t.counts.runtime_steps δ)
          { t.counts with runtime_steps := satAdd64 t.counts.runtime_steps δ }))) := by
  refine ⟨⟨?_, ?_⟩, ⟨?_, ?_⟩, ⟨?_, ?_⟩, ⟨?_, ?_⟩, ⟨?_, ?_⟩⟩ <;>
    simp only [ResourceTracker.bump_states, ResourceTracker.bump_edges,
      ResourceTracker.bump_cache_entries, ResourceTracker.bump_cached_moves,
      ResourceTracker.bump_steps, ResourceTracker.bump]
  all_goals
    first
    | (split_ifs with h
       · simp only [reduceCtorEq, false_iff]
         omega
       · simp only [true_iff]
         omega)
    | (intro h
       simp only [if_pos h])

/-- C2: `black_moves_with_delta` emits exactly the pairs `(δ, next)` with `δ`
one of the 8 king steps, `δ` not the square of a present white king, `next`
the canonicalised re-centred position (shift by `−δ`, capture on `δ`), `next`
legal, and the origin unattacked in `next`; no other condition suppresses a
king step and at most 8 moves are emitted. -/
theorem black_moves_with_delta_spec (r : Rules) (pos : Pos) :
    (∀ δ p, (δ, p) ∈ r.black_moves_with_delta pos ↔
      (δ ∈ KING_STEPS ∧ whiteKingAt r pos δ = false ∧
        p = canonicalize r.layout.kinds (recenter pos δ) ∧
        r.is_legal_position p = true ∧ r.is_attacked Coord.origin p = false)) ∧
    (r.black_moves_with_delta pos).length ≤ 8 := by
  constructor
  · intro δ p
    simp only [Rules.black_moves_with_delta, List.mem_filterMap]
    constructor
    · rintro ⟨a, ha, hf⟩
      split_ifs at hf with h1 h2 h3
      all_goals simp only [Option.some.injEq, Prod.mk.injEq,
        reduceCtorEq, false_and, and_false] at hf
      obtain ⟨rfl, rfl⟩ := hf
      exact ⟨ha, by simpa using h1, rfl, by simpa using h2, by simpa using h3⟩
    · rintro ⟨hδ, hwk, rfl, hleg, hatt⟩
      refine ⟨δ, hδ, ?_⟩
      rw [if_neg (by simp [hwk]), if_pos hleg, if_neg (by simp [hatt])]
  · calc (r.black_moves_with_delta pos).length ≤ KING_STEPS.length :=
          List.length_filterMap_le _ _
    _ = 8 := rfl

/-- Helper: every position emitted by the slider walk comes from a stop at
some step `t` in the walked range whose whole prefix of steps was neither the
origin nor occupied by another piece, and it is the canonicalised legal
relocation to that stop. -/
theorem slider_walk_mem (r : Rules) (pos : Pos) (i : Nat) (c dir : Coord) :
    ∀ (fuel : Nat) (s0 : Int) (p : Pos), p ∈ slider_walk r pos i c dir fuel s0 →
      ∃ t : Int, s0 ≤ t ∧ t < s0 + fuel ∧
        (∀ j : Int, s0 ≤ j → j ≤ t →
          c.add (dir.smul j) ≠ Coord.origin ∧
          occupiedExcept pos (some (c.add (dir.smul j))) i = false) ∧
        p = canonicalize r.layout.kinds (pos.set i (some (c.add (dir.smul t)))) ∧
        r.is_legal_position p = true := by
  intro fuel
  induction fuel with
  | zero => intro s0 p hp; simp [slider_walk] at hp
  | succ fuel ih =>
    intro s0 p hp
    rw [slider_walk] at hp
    by_cases h1 : c.add (dir.smul s0) = Coord.origin
    · rw [if_pos h1] at hp; simp at hp
    rw [if_neg h1] at hp
    by_cases h2 : occupiedExcept pos (some (c.add (dir.smul s0))) i = true
    · rw [if_pos h2] at hp; simp at hp
    rw [if_neg h2] at hp
    rcases List.mem_append.mp hp with hhead | htail
    · by_cases h3 : r.is_legal_position
        (canonicalize r.layout.kinds (pos.set i (some (c.add (dir.smul s0))))) = true
      · rw [if_pos h3] at hhead
        simp only [List.mem_singleton] at hhead
        subst hhead
        refine ⟨s0, le_refl _, by omega, ?_, rfl, h3⟩
        intro j hj1 hj2
        have : j = s0 := le_antisymm hj2 hj1
        subst this
        exact ⟨h1, by simpa using h2⟩
      · rw [if_neg h3] at hhead; simp at hhead
    · obtain ⟨t, ht1, ht2, ht3, ht4, ht5⟩ := ih (s0 + 1) p htail
      refine ⟨t, by omega, by omega, ?_, ht4, ht5⟩
      intro j hj1 hj2
      by_cases hj : j = s0
      · subst hj
        exact ⟨h1, by simpa using h2⟩
      · exact ht3 j (by omega) hj2

/-- C3: every move emitted for a present slider piece at `c` relocates it to
`c + dir·step` for a direction of its kind and a step with `1 ≤ step ≤
move_bound`, where every intermediate square `c + dir·j` (`1 ≤ j ≤ step`) is
neither the origin nor occupied by another present white piece; no step beyond
`move_bound` is emitted, every emitted position is legal, and each such move
appears in `white_moves`. -/
theorem white_moves_slider_spec (r : Rules) (pos : Pos) (i : Nat) (k : PieceKind) (c : Coord)
    (hk : r.layout.kinds.get? i = some k)
    (hslider : k = .queen ∨ k = .rook ∨ k = .bishop)
    (hc : pos.getD i none = some c) :
    ∀ p ∈ piece_moves_at r pos i,
      (∃ dir ∈ k.slideDirs, ∃ step : Int, 1 ≤ step ∧ step ≤ r.moveBound ∧
        (∀ j : Int, 1 ≤ j → j ≤ step →
          c.add (dir.smul j) ≠ Coord.origin ∧
          occupiedExcept pos (some (c.add (dir.smul j))) i = false) ∧
        p = canonicalize r.layout.kinds (pos.set i (some (c.add (dir.smul step)))) ∧
        r.is_legal_position p = true) ∧
      p ∈ r.white_moves pos false := by
  intro p hp
  have hlen : i < pos.length := by
    by_contra hge
    rw [List.getD_eq_default _ _ (by omega)] at hc
    cases hc
  have hwm : p ∈ r.white_moves pos false := by
    unfold Rules.white_moves
    rw [if_neg (by simp : ¬(false = true)), List.nil_append]
    exact List.mem_flatMap.mpr ⟨i, List.mem_range.mpr hlen, hp⟩
  refine ⟨?_, hwm⟩
  unfold piece_moves_at at hp
  rw [hk, hc] at hp
  have hwalk : p ∈ k.slideDirs.flatMap fun dir =>
      slider_walk r pos i c dir r.moveBound.toNat 1 := by
    rcases hslider with rfl | rfl | rfl <;> exact hp
  obtain ⟨dir, hdir, hpw⟩ := List.mem_flatMap.mp hwalk
  obtain ⟨t, ht1, ht2, ht3, ht4, ht5⟩ := slider_walk_mem r pos i c dir _ _ _ hpw
  exact ⟨dir, hdir, t, ht1, by omega, ht3, ht4, ht5⟩

/-- A single-rook layout for concrete witnesses. -/
def rookLayout : PieceLayout := { kinds := [PieceKind.rook], whiteKingIndex := none }

/-- Rules with a single rook and move bound 1, for concrete witnesses. -/
def rookRules : Rules := { layout := rookLayout, moveBound := 1 }

/-- A single-rook position (rook at (2,0)) for concrete witnesses. -/
def rookPos : Pos := [some ⟨2, 0⟩]

/-- The move of the lone rook from (2,0) to (3,0). -/
def rookMove : Pos := [some ⟨3, 0⟩]

/-- Helper: the concrete move list of the lone rook at (2,0). -/
theorem rook_moves_eval : piece_moves_at rookRules rookPos 0 =
    [[some ⟨3, 0⟩], [some ⟨1, 0⟩], [some ⟨2, 1⟩], [some ⟨2, -1⟩]] := by
  simp +decide [piece_moves_at, rookRules, rookLayout, rookPos, slider_walk, canonicalize,
    sortSquares, insertSquare, Rules.is_legal_position, PieceKind.slideDirs]

/-- C3 witness: the slider specification at the concrete one-rook position and
the concrete move to (3,0). -/
theorem white_moves_slider_spec_witness :
    ((∃ dir ∈ PieceKind.rook.slideDirs, ∃ step : Int, 1 ≤ step ∧ step ≤ rookRules.moveBound ∧
        (∀ j : Int, 1 ≤ j → j ≤ step →
          Coord.add ⟨2, 0⟩ (dir.smul j) ≠ Coord.origin ∧
          occupiedExcept rookPos (some (Coord.add ⟨2, 0⟩ (dir.smul j))) 0 = false) ∧
        rookMove = canonicalize rookRules.layout.kinds
          (rookPos.set 0 (some (Coord.add ⟨2, 0⟩ (dir.smul step)))) ∧
        rookRules.is_legal_position rookMove = true) ∧
      rookMove ∈ rookRules.white_moves rookPos false) :=
  white_moves_slider_spec rookRules rookPos 0 PieceKind.rook ⟨2, 0⟩ rfl
    (Or.inr (Or.inl rfl)) rfl rookMove (by simp [rook_moves_eval, rookMove])

/-- C4: `is_checkmate` is exactly "origin attacked and the unbounded black
move set empty", `count_checkmates_in_bound` counts the enumerated positions
by that same unbounded predicate, and any enumerated position with a legal
black reply (bounded or not) is not counted as mate. -/
theorem is_checkmate_spec (r : Rules) (pos : Pos) (bound : Int) :
    (r.is_checkmate pos = (r.is_attacked Coord.origin pos && (r.black_moves pos).isEmpty)) ∧
    (count_checkmates_in_bound r bound =
      ((enumerate_positions_in_bound r.layout bound false).filter
        (fun p => r.is_attacked Coord.origin p && (r.black_moves p).isEmpty)).length) ∧
    (∀ p ∈ enumerate_positions_in_bound r.layout bound false,
      (∃ δ q, (δ, q) ∈ r.black_moves_with_delta p) → r.is_checkmate p = false) := by
  have hmate : ∀ q : Pos, r.is_checkmate q =
      (r.is_attacked Coord.origin q && (r.black_moves q).isEmpty) := by
    intro q
    by_cases h : r.is_attacked Coord.origin q = true <;>
      simp [Rules.is_checkmate, h]
  refine ⟨hmate pos, ?_, ?_⟩
  · unfold count_checkmates_in_bound
    congr 1
    exact List.filter_congr fun p _ => hmate p
  · rintro p - ⟨δ, q, hq⟩
    rw [hmate p]
    have hne : (r.black_moves p).isEmpty = false := by
      have : q ∈ r.black_moves p := by
        unfold Rules.black_moves
        exact List.mem_map.mpr ⟨(δ, q), hq, rfl⟩
      cases hbm : r.black_moves p with
      | nil => rw [hbm] at this; cases this
      | cons a l => simp
    simp [hne]

/-- Helper: one pruning pass only removes states. -/
theorem trapPruneStep_subset {σ : Type _} [DecidableEq σ] (blackM whiteM : σ → List σ)
    (T : Finset σ) : trapPruneStep blackM whiteM T ⊆ T :=
  Finset.filter_subset _ _

/-- Helper: a closed subset of the current set survives one pruning pass. -/
theorem trapPruneStep_keeps_closed {σ : Type _} [DecidableEq σ] (blackM whiteM : σ → List σ)
    (S T : Finset σ) (hST : S ⊆ T)
    (hclosed : ∀ t ∈ S, ∀ w ∈ blackM t, ∃ x ∈ whiteM w, x ∈ S) :
    S ⊆ trapPruneStep blackM whiteM T := by
  intro t ht
  unfold trapPruneStep
  rw [Finset.mem_filter]
  refine ⟨hST ht, ?_⟩
  unfold trapRefuted
  rw [Bool.eq_false_iff]
  intro hany
  rw [List.any_eq_true] at hany
  obtain ⟨w, hw, hall⟩ := hany
  rw [List.all_eq_true] at hall
  obtain ⟨x, hx, hxS⟩ := hclosed t ht w hw
  have := hall x hx
  rw [decide_eq_true_eq] at this
  exact this (hST hxS)

/-- C1: the set returned by `maximal_inescapable_trap` is contained in the
candidate set, every state in it has, for every legal black reply, a legal
white reply back into the set, and it contains every subset of the candidate
set with that closure property (it is the greatest such set). -/
theorem maximal_inescapable_trap_gfp {σ : Type _} [DecidableEq σ]
    (blackM whiteM : σ → List σ) (T0 : Finset σ) :
    (maximal_inescapable_trap blackM whiteM T0 ⊆ T0) ∧
    (∀ t ∈ maximal_inescapable_trap blackM whiteM T0, ∀ w ∈ blackM t,
      ∃ x ∈ whiteM w, x ∈ maximal_inescapable_trap blackM whiteM T0) ∧
    (∀ S : Finset σ, S ⊆ T0 →
      (∀ t ∈ S, ∀ w ∈ blackM t, ∃ x ∈ whiteM w, x ∈ S) →
      S ⊆ maximal_inescapable_trap blackM whiteM T0) := by
  set f := trapPruneStep blackM whiteM with hf
  have hsub : ∀ k : Nat, f^[k] T0 ⊆ T0 := by
    intro k
    induction k with
    | zero => simp
    | succ k ih =>
      rw [Function.iterate_succ_apply']
      exact (trapPruneStep_subset blackM whiteM _).trans ih
  have hfix : f (maximal_inescapable_trap blackM whiteM T0)
      = maximal_inescapable_trap blackM whiteM T0 := by
    unfold maximal_inescapable_trap
    exact iterate_fixed_of_dec f Finset.card
      (fun a hne => Finset.card_lt_card
        (Finset.ssubset_iff_subset_ne.mpr ⟨trapPruneStep_subset blackM whiteM a, hne⟩))
      T0
  refine ⟨hsub _, ?_, ?_⟩
  · intro t ht w hw
    have ht' : t ∈ f (maximal_inescapable_trap blackM whiteM T0) := by
      rw [hfix]; exact ht
    rw [hf] at ht'
    unfold trapPruneStep at ht'
    rw [Finset.mem_filter] at ht'
    have hok := ht'.2
    unfold trapRefuted at hok
    rw [Bool.eq_false_iff] at hok
    by_contra hno
    push_neg at hno
    apply hok
    rw [List.any_eq_true]
    refine ⟨w, hw, ?_⟩
    rw [List.all_eq_true]
    intro x hx
    rw [decide_eq_true_eq]
    exact hno x hx
  · intro S hS hclosed
    have : ∀ k : Nat, S ⊆ f^[k] T0 := by
      intro k
      induction k with
      | zero => simpa using hS
      | succ k ih =>
        rw [Function.iterate_succ_apply']
        exact trapPruneStep_keeps_closed blackM whiteM S _ ih hclosed
    exact this _

/-- Helper: one white-attractor pass only adds nodes. -/
theorem attrWhiteStep_incl (g : BuchiGraph) (Zb Zw : Finset Nat)
    (A : Finset Nat × Finset Nat) :
    A.1 ⊆ (attrWhiteStep g Zb Zw A).1 ∧ A.2 ⊆ (attrWhiteStep g Zb Zw A).2 :=
  ⟨Finset.subset_union_left, Finset.subset_union_left⟩

/-- Helper: the white-attractor iteration stays inside the subgame `Z`. -/
theorem attrW_iter_subZ (g : BuchiGraph) (Zb Zw : Finset Nat) (k : Nat) :
    ((attrWhiteStep g Zb Zw)^[k] (∅, Zw.filter fun wi => g.accept wi = true)).1 ⊆ Zb ∧
    ((attrWhiteStep g Zb Zw)^[k] (∅, Zw.filter fun wi => g.accept wi = true)).2 ⊆ Zw := by
  induction k with
  | zero => exact ⟨by simp, by simp⟩
  | succ k ih =>
    rw [Function.iterate_succ_apply']
    constructor
    · exact Finset.union_subset ih.1 (Finset.filter_subset _ _)
    · exact Finset.union_subset ih.2 (Finset.filter_subset _ _)

/-- Helper: the white attractor is a fixed point of its pass. -/
theorem attrW_fix (g : BuchiGraph) (Zb Zw : Finset Nat) :
    attrWhiteStep g Zb Zw (attractor_white g Zb Zw) = attractor_white g Zb Zw := by
  unfold attractor_white
  refine iterate_fixed_of_inc (attrWhiteStep g Zb Zw)
    (fun A => A.1.card + A.2.card) _ (Zb.card + Zw.card) ?_ ?_
  · intro k
    have h := attrW_iter_subZ g Zb Zw k
    exact Nat.add_le_add (Finset.card_le_card h.1) (Finset.card_le_card h.2)
  · intro A hne
    have h := attrWhiteStep_incl g Zb Zw A
    show A.1.card + A.2.card <
      (attrWhiteStep g Zb Zw A).1.card + (attrWhiteStep g Zb Zw A).2.card
    by_cases h1 : (attrWhiteStep g Zb Zw A).1 = A.1
    · have h2 : (attrWhiteStep g Zb Zw A).2 ≠ A.2 := by
        intro h2
        exact hne (Prod.ext h1 h2)
      have hc2 : A.2.card < (attrWhiteStep g Zb Zw A).2.card :=
        Finset.card_lt_card (Finset.ssubset_iff_subset_ne.mpr ⟨h.2, fun e => h2 e.symm⟩)
      have hc1 := Finset.card_le_card h.1
      omega
    · have hc1 : A.1.card < (attrWhiteStep g Zb Zw A).1.card :=
        Finset.card_lt_card (Finset.ssubset_iff_subset_ne.mpr ⟨h.1, fun e => h1 e.symm⟩)
      have hc2 := Finset.card_le_card h.2
      omega

/-- Helper: the accepting seed is contained in the white attractor. -/
theorem attrW_seed_le (g : BuchiGraph) (Zb Zw : Finset Nat) :
    (Zw.filter fun wi => g.accept wi = true) ⊆ (attractor_white g Zb Zw).2 := by
  unfold attractor_white
  generalize Zb.card + Zw.card + 1 = fuel
  induction fuel with
  | zero => simp
  | succ k ih =>
    rw [Function.iterate_succ_apply']
    exact ih.trans (attrWhiteStep_incl g Zb Zw _).2

/-- Helper: every node of the white attractor is justified — an attracted
black node has at least one successor inside `Z` and all of its in-`Z`
successors in the attractor's white part; an attracted white node is either
accepting (and in `Z`) or has an attracted black successor in `Z`. -/
theorem attrW_sound (g : BuchiGraph) (Zb Zw : Finset Nat) :
    (∀ bi ∈ (attractor_white g Zb Zw).1,
      (∃ wi ∈ g.bw bi, wi ∈ Zw) ∧
        ∀ wi ∈ g.bw bi, wi ∈ Zw → wi ∈ (attractor_white g Zb Zw).2) ∧
    (∀ wi ∈ (attractor_white g Zb Zw).2,
      (g.accept wi = true ∧ wi ∈ Zw) ∨
        ∃ bi ∈ g.wb wi, bi ∈ Zb ∧ bi ∈ (attractor_white g Zb Zw).1) := by
  unfold attractor_white
  generalize Zb.card + Zw.card + 1 = fuel
  induction fuel with
  | zero =>
    constructor
    · intro bi hbi; simp at hbi
    · intro wi hwi
      simp only [Function.iterate_zero, id_eq] at hwi ⊢
      rw [Finset.mem_filter] at hwi
      exact Or.inl ⟨hwi.2, hwi.1⟩
  | succ k ih =>
    rw [Function.iterate_succ_apply']
    set A := (attrWhiteStep g Zb Zw)^[k] (∅, Zw.filter fun wi => g.accept wi = true) with hA
    have hstep := attrWhiteStep_incl g Zb Zw A
    constructor
    · intro bi hbi
      rcases Finset.mem_union.mp hbi with hold | hnew
      · obtain ⟨hex, hall⟩ := ih.1 bi hold
        exact ⟨hex, fun wi hwi hz => hstep.2 (hall wi hwi hz)⟩
      · rw [Finset.mem_filter] at hnew
        exact hnew.2
    · intro wi hwi
      rcases Finset.mem_union.mp hwi with hold | hnew
      · rcases ih.2 wi hold with hacc | ⟨bi, hbi, hz, hin⟩
        · exact Or.inl hacc
        · exact Or.inr ⟨bi, hbi, hz, hstep.1 hin⟩
      · rw [Finset.mem_filter] at hnew
        obtain ⟨bi, hbi, hz, hin⟩ := hnew.2
        exact Or.inr ⟨bi, hbi, hz, hstep.1 hin⟩

/-- Helper: the white attractor is the least pair closed under the seeding and
join rules. -/
theorem attrW_least (g : BuchiGraph) (Zb Zw : Finset Nat) (Sb Sw : Finset Nat)
    (hseed : ∀ wi ∈ Zw, g.accept wi = true → wi ∈ Sw)
    (hwhite : ∀ wi ∈ Zw, (∃ bi ∈ g.wb wi, bi ∈ Zb ∧ bi ∈ Sb) → wi ∈ Sw)
    (hblack : ∀ bi ∈ Zb, (∃ wi ∈ g.bw bi, wi ∈ Zw) →
      (∀ wi ∈ g.bw bi, wi ∈ Zw → wi ∈ Sw) → bi ∈ Sb) :
    (attractor_white g Zb Zw).1 ⊆ Sb ∧ (attractor_white g Zb Zw).2 ⊆ Sw := by
  unfold attractor_white
  generalize Zb.card + Zw.card + 1 = fuel
  induction fuel with
  | zero =>
    constructor
    · intro bi hbi; simp at hbi
    · intro wi hwi
      simp only [Function.iterate_zero, id_eq] at hwi
      rw [Finset.mem_filter] at hwi
      exact hseed wi hwi.1 hwi.2
  | succ k ih =>
    rw [Function.iterate_succ_apply']
    set A := (attrWhiteStep g Zb Zw)^[k] (∅, Zw.filter fun wi => g.accept wi = true) with hA
    have hAw : (attrWhiteStep g Zb Zw A).2 ⊆ Sw := by
      intro wi hwi
      rcases Finset.mem_union.mp hwi with hold | hnew
      · exact ih.2 hold
      · rw [Finset.mem_filter] at hnew
        obtain ⟨bi, hbi, hz, hin⟩ := hnew.2
        exact hwhite wi hnew.1 ⟨bi, hbi, hz, ih.1 hin⟩
    constructor
    · intro bi hbi
      rcases Finset.mem_union.mp hbi with hold | hnew
      · exact ih.1 hold
      · rw [Finset.mem_filter] at hnew
        exact hblack bi hnew.1 hnew.2.1 fun wi hwi hz => hAw (hnew.2.2 wi hwi hz)
    · exact hAw

/-- C6: `attractor_white` returns, restricted to the subgame `Z`, the least
pair of sets closed under: accepting white nodes of `Z` are in; a white node
of `Z` joins if some black successor inside `Z` is in; a black node of `Z`
joins iff it has at least one white successor inside `Z` and all of its white
successors inside `Z` are in.  A black node with no successor inside `Z`
never joins. -/
theorem attractor_white_spec (g : BuchiGraph) (Zb Zw : Finset Nat) :
    ((attractor_white g Zb Zw).1 ⊆ Zb ∧ (attractor_white g Zb Zw).2 ⊆ Zw) ∧
    (∀ wi ∈ Zw, g.accept wi = true → wi ∈ (attractor_white g Zb Zw).2) ∧
    (∀ wi ∈ Zw, (∃ bi ∈ g.wb wi, bi ∈ Zb ∧ bi ∈ (attractor_white g Zb Zw).1) →
      wi ∈ (attractor_white g Zb Zw).2) ∧
    (∀ bi ∈ Zb, bi ∈ (attractor_white g Zb Zw).1 ↔
      ((∃ wi ∈ g.bw bi, wi ∈ Zw) ∧
        ∀ wi ∈ g.bw bi, wi ∈ Zw → wi ∈ (attractor_white g Zb Zw).2)) ∧
    (∀ Sb Sw : Finset Nat,
      (∀ wi ∈ Zw, g.accept wi = true → wi ∈ Sw) →
      (∀ wi ∈ Zw, (∃ bi ∈ g.wb wi, bi ∈ Zb ∧ bi ∈ Sb) → wi ∈ Sw) →
      (∀ bi ∈ Zb, (∃ wi ∈ g.bw bi, wi ∈ Zw) →
        (∀ wi ∈ g.bw bi, wi ∈ Zw → wi ∈ Sw) → bi ∈ Sb) →
      (attractor_white g Zb Zw).1 ⊆ Sb ∧ (attractor_white g Zb Zw).2 ⊆ Sw) ∧
    (∀ bi, (∀ wi ∈ g.bw bi, wi ∉ Zw) → bi ∉ (attractor_white g Zb Zw).1) := by
  have hsubZ : (attractor_white g Zb Zw).1 ⊆ Zb ∧ (attractor_white g Zb Zw).2 ⊆ Zw := by
    unfold attractor_white
    exact attrW_iter_subZ g Zb Zw _
  have hfix := attrW_fix g Zb Zw
  have hsound := attrW_sound g Zb Zw
  refine ⟨hsubZ, ?_, ?_, ?_, attrW_least g Zb Zw, ?_⟩
  · intro wi hwi hacc
    exact attrW_seed_le g Zb Zw (Finset.mem_filter.mpr ⟨hwi, hacc⟩)
  · intro wi hwi hex
    have : wi ∈ (attrWhiteStep g Zb Zw (attractor_white g Zb Zw)).2 := by
      unfold attrWhiteStep
      exact Finset.mem_union_right _ (Finset.mem_filter.mpr ⟨hwi, hex⟩)
    rw [hfix] at this
    exact this
  · intro bi hbi
    constructor
    · intro hin
      exact hsound.1 bi hin
    · rintro ⟨hex, hall⟩
      have : bi ∈ (attrWhiteStep g Zb Zw (attractor_white g Zb Zw)).1 := by
        unfold attrWhiteStep
        refine Finset.mem_union_right _ (Finset.mem_filter.mpr ⟨hbi, hex, ?_⟩)
        intro wi hwi hz
        exact Finset.mem_union_left _ (hall wi hwi hz)
      rw [hfix] at this
      exact this
  · intro bi hdead hin
    obtain ⟨⟨wi, hwi, hz⟩, -⟩ := hsound.1 bi hin
    exact hdead wi hwi hz

/-- Helper: one black-attractor pass only adds nodes. -/
theorem attrBlackStep_incl (g : BuchiGraph) (Zb Zw : Finset Nat)
    (A : Finset Nat × Finset Nat) :
    A.1 ⊆ (attrBlackStep g Zb Zw A).1 ∧ A.2 ⊆ (attrBlackStep g Zb Zw A).2 :=
  ⟨Finset.subset_union_left, Finset.subset_union_left⟩

/-- Helper: the black attractor contains its seed (the target inside `Z`). -/
theorem attrB_seed_le (g : BuchiGraph) (Zb Zw targetB targetW : Finset Nat) :
    (Zb.filter (· ∈ targetB)) ⊆ (attractor_black g Zb Zw targetB targetW).1 ∧
    (Zw.filter (· ∈ targetW)) ⊆ (attractor_black g Zb Zw targetB targetW).2 := by
  unfold attractor_black
  generalize Zb.card + Zw.card + 1 = fuel
  induction fuel with
  | zero => exact ⟨by simp, by simp⟩
  | succ k ih =>
    rw [Function.iterate_succ_apply']
    exact ⟨ih.1.trans (attrBlackStep_incl g Zb Zw _).1,
      ih.2.trans (attrBlackStep_incl g Zb Zw _).2⟩

/-- Helper: one subgame-loop iteration only removes nodes. -/
theorem zStep_subset (g : BuchiGraph) (Z : Finset Nat × Finset Nat) :
    (zStep g Z).1 ⊆ Z.1 ∧ (zStep g Z).2 ⊆ Z.2 :=
  ⟨Finset.sdiff_subset, Finset.sdiff_subset⟩

/-- Helper: the final subgame is a fixed point of the removal step. -/
theorem zFix (g : BuchiGraph) :
    zStep g (compute_winning_region g) = compute_winning_region g := by
  unfold compute_winning_region
  have hcard : (Finset.range g.nb).card + (Finset.range g.nw).card = g.nb + g.nw := by
    simp
  rw [show g.nb + g.nw + 1
      = (fun Z : Finset Nat × Finset Nat => Z.1.card + Z.2.card)
          (Finset.range g.nb, Finset.range g.nw) + 1 by simp]
  refine iterate_fixed_of_dec (zStep g) (fun Z => Z.1.card + Z.2.card) ?_ _
  intro Z hne
  have h := zStep_subset g Z
  show (zStep g Z).1.card + (zStep g Z).2.card < Z.1.card + Z.2.card
  by_cases h1 : (zStep g Z).1 = Z.1
  · have h2 : (zStep g Z).2 ≠ Z.2 := fun h2 => hne (Prod.ext h1 h2)
    have hc2 : (zStep g Z).2.card < Z.2.card :=
      Finset.card_lt_card (Finset.ssubset_iff_subset_ne.mpr ⟨h.2, h2⟩)
    have hc1 := Finset.card_le_card h.1
    omega
  · have hc1 : (zStep g Z).1.card < Z.1.card :=
      Finset.card_lt_card (Finset.ssubset_iff_subset_ne.mpr ⟨h.1, h1⟩)
    have hc2 := Finset.card_le_card h.2
    omega

/-- Helper: at the final subgame, every node is in the white attractor of the
accepting set (otherwise the black attractor of the complement would remove
it). -/
theorem winning_sub_attr (g : BuchiGraph) :
    (compute_winning_region g).1 ⊆
      (attractor_white g (compute_winning_region g).1 (compute_winning_region g).2).1 ∧
    (compute_winning_region g).2 ⊆
      (attractor_white g (compute_winning_region g).1 (compute_winning_region g).2).2 := by
  have hfix := zFix g
  set Z := compute_winning_region g with hZ
  set Y := attractor_white g Z.1 Z.2 with hY
  set X := attractor_black g Z.1 Z.2 (Z.1 \ Y.1) (Z.2 \ Y.2) with hX
  have hstep : zStep g Z = (Z.1 \ X.1, Z.2 \ X.2) := rfl
  rw [hstep] at hfix
  have h1 : Z.1 \ X.1 = Z.1 := congrArg Prod.fst hfix
  have h2 : Z.2 \ X.2 = Z.2 := congrArg Prod.snd hfix
  have hseed := attrB_seed_le g Z.1 Z.2 (Z.1 \ Y.1) (Z.2 \ Y.2)
  constructor
  · intro a ha
    by_contra hnot
    have haX : a ∈ X.1 := hseed.1 (by
      rw [Finset.mem_filter]
      exact ⟨ha, Finset.mem_sdiff.mpr ⟨ha, hnot⟩⟩)
    have : a ∈ Z.1 \ X.1 := h1.symm ▸ ha
    exact (Finset.mem_sdiff.mp this).2 haX
  · intro a ha
    by_contra hnot
    have haX : a ∈ X.2 := hseed.2 (by
      rw [Finset.mem_filter]
      exact ⟨ha, Finset.mem_sdiff.mpr ⟨ha, hnot⟩⟩)
    have : a ∈ Z.2 \ X.2 := h2.symm ▸ ha
    exact (Finset.mem_sdiff.mp this).2 haX

/-- Helper: with no accepting node, the white attractor is empty. -/
theorem attrW_empty_of_no_accept (g : BuchiGraph) (Zb Zw : Finset Nat)
    (hacc : ∀ wi, g.accept wi = false) :
    attractor_white g Zb Zw = (∅, ∅) := by
  unfold attractor_white
  have hseed : (Zw.filter fun wi => g.accept wi = true) = ∅ := by
    rw [Finset.filter_eq_empty_iff]
    intro wi _
    rw [hacc wi]
    simp
  rw [hseed]
  have hfixed : attrWhiteStep g Zb Zw ((∅ : Finset Nat), (∅ : Finset Nat)) = (∅, ∅) := by
    unfold attrWhiteStep
    have hw : (Zw.filter fun wi => ∃ bi ∈ g.wb wi, bi ∈ Zb ∧ bi ∈ (∅ : Finset Nat)) = ∅ := by
      rw [Finset.filter_eq_empty_iff]
      rintro wi _ ⟨bi, _, _, hbi⟩
      simp at hbi
    simp only [hw, Finset.union_empty, Finset.empty_union]
    have hb : (Zb.filter fun bi =>
        (∃ wi ∈ g.bw bi, wi ∈ Zw) ∧ ∀ wi ∈ g.bw bi, wi ∈ Zw → wi ∈ (∅ : Finset Nat)) = ∅ := by
      rw [Finset.filter_eq_empty_iff]
      rintro bi _ ⟨⟨wi, hwi, hz⟩, hall⟩
      have := hall wi hwi hz
      simp at this
    rw [hb]
  rw [Function.iterate_fixed hfixed]

/-- Helper: membership in the extracted tempo trap. -/
theorem tempo_trap_mem {σ : Type _} [DecidableEq σ] (blackM whiteM : σ → List σ)
    (whiteCanPass : Bool) (allowPass : σ → Bool) (bList : List σ) (s : σ) :
    s ∈ tempo_trap_buchi blackM whiteM whiteCanPass allowPass bList ↔
      ∃ bi, bi < bList.length ∧
        bi ∈ (compute_winning_region
          (buildBuchiGraph blackM whiteM whiteCanPass allowPass bList).1).1 ∧
        bList.get? bi = some s := by
  unfold tempo_trap_buchi
  rw [List.mem_filterMap]
  constructor
  · rintro ⟨bi, hbi, hf⟩
    rw [List.mem_range] at hbi
    by_cases hz : bi ∈ (compute_winning_region
        (buildBuchiGraph blackM whiteM whiteCanPass allowPass bList).1).1
    · rw [if_pos hz] at hf
      exact ⟨bi, hbi, hz, hf⟩
    · rw [if_neg hz] at hf
      cases hf
  · rintro ⟨bi, hbi, hz, hget⟩
    refine ⟨bi, List.mem_range.mpr hbi, ?_⟩
    rw [if_pos hz]
    exact hget

/-- Helper: with `white_can_pass = false` the built graph has no accepting
white node. -/
theorem buildBuchiGraph_no_accept {σ : Type _} [DecidableEq σ]
    (blackM whiteM : σ → List σ) (allowPass : σ → Bool) (bList : List σ) :
    ∀ wi, (buildBuchiGraph blackM whiteM false allowPass bList).1.accept wi = false := by
  intro wi
  unfold buildBuchiGraph BuchiGraph.accept
  simp only []
  cases h : ((discoverW blackM bList).map fun w =>
      false && allowPass w && decide (w ∈ bList)).get? wi with
  | none => rw [List.getD_eq_getD_get?, h]; rfl
  | some b =>
    rw [List.getD_eq_getD_get?, h]
    rw [List.get?_map] at h
    cases hw : (discoverW blackM bList).get? wi with
    | none => rw [hw] at h; cases h
    | some w =>
      rw [hw] at h
      simp only [Option.map_some', Option.some.injEq] at h
      subst h
      rfl

/-- Helper: the black successor list of a trap node with index `bi` holding
state `s`. -/
theorem buildBuchiGraph_bw {σ : Type _} [DecidableEq σ] (blackM whiteM : σ → List σ)
    (whiteCanPass : Bool) (allowPass : σ → Bool) (bList : List σ) (bi : Nat) (s : σ)
    (hget : bList.get? bi = some s) :
    (buildBuchiGraph blackM whiteM whiteCanPass allowPass bList).1.bw bi =
      sortDedup ((blackM s).map fun w => idxOf w (discoverW blackM bList)) := by
  unfold buildBuchiGraph BuchiGraph.bw
  simp only []
  rw [List.getD_eq_getD_get?, List.get?_map, hget]
  rfl

/-- C5: the tempo trap returned by `tempo_trap_buchi` is a subset of the
given trap `T`; it is empty when `white_can_pass = false`; and it contains no
state whose set of legal black replies is empty. -/
theorem tempo_trap_buchi_spec {σ : Type _} [DecidableEq σ] (blackM whiteM : σ → List σ)
    (whiteCanPass : Bool) (allowPass : σ → Bool) (bList : List σ) :
    (∀ s ∈ tempo_trap_buchi blackM whiteM whiteCanPass allowPass bList, s ∈ bList) ∧
    (whiteCanPass = false → tempo_trap_buchi blackM whiteM whiteCanPass allowPass bList = []) ∧
    (∀ s ∈ tempo_trap_buchi blackM whiteM whiteCanPass allowPass bList, blackM s ≠ []) := by
  refine ⟨?_, ?_, ?_⟩
  · intro s hs
    obtain ⟨bi, hbi, hz, hget⟩ :=
      (tempo_trap_mem blackM whiteM whiteCanPass allowPass bList s).mp hs
    exact List.get?_mem hget
  · intro hwcp
    subst hwcp
    have hacc := buildBuchiGraph_no_accept blackM whiteM allowPass bList
    have hempty := attrW_empty_of_no_accept
      (buildBuchiGraph blackM whiteM false allowPass bList).1
      (compute_winning_region (buildBuchiGraph blackM whiteM false allowPass bList).1).1
      (compute_winning_region (buildBuchiGraph blackM whiteM false allowPass bList).1).2
      hacc
    have hsub := (winning_sub_attr (buildBuchiGraph blackM whiteM false allowPass bList).1).1
    rw [hempty] at hsub
    unfold tempo_trap_buchi
    rw [List.filterMap_eq_nil]
    intro bi hbi
    rw [if_neg]
    intro hz
    have := hsub hz
    simp at this
  · intro s hs
    obtain ⟨bi, hbi, hz, hget⟩ :=
      (tempo_trap_mem blackM whiteM whiteCanPass allowPass bList s).mp hs
    have hY := (winning_sub_attr (buildBuchiGraph blackM whiteM whiteCanPass allowPass bList).1).1 hz
    have hsound := (attrW_sound (buildBuchiGraph blackM whiteM whiteCanPass allowPass bList).1
      (compute_winning_region (buildBuchiGraph blackM whiteM whiteCanPass allowPass bList).1).1
      (compute_winning_region (buildBuchiGraph blackM whiteM whiteCanPass allowPass bList).1).2).1
      bi hY
    obtain ⟨⟨wi, hwi, -⟩, -⟩ := hsound
    intro h0
    rw [buildBuchiGraph_bw blackM whiteM whiteCanPass allowPass bList bi s hget, h0] at hwi
    simp [sortDedup, sortNat, dedupAdj] at hwi

/-- Helper: membership in an insertion-sorted index list. -/
theorem mem_insertNat (a x : Nat) (l : List Nat) :
    x ∈ insertNat a l ↔ x = a ∨ x ∈ l := by
  induction l with
  | nil => simp [insertNat]
  | cons b r ih =>
    unfold insertNat
    by_cases h : a ≤ b
    · simp [h]
    · rw [if_neg h]
      simp only [List.mem_cons, ih]
      tauto

/-- Helper: sorting an index list preserves membership. -/
theorem mem_sortNat (x : Nat) (l : List Nat) : x ∈ sortNat l ↔ x ∈ l := by
  induction l with
  | nil => simp [sortNat]
  | cons a r ih =>
    unfold sortNat
    rw [mem_insertNat]
    simp only [List.mem_cons, ih]

/-- Helper: removing adjacent duplicates preserves membership. -/
theorem mem_dedupAdj (x : Nat) (l : List Nat) : x ∈ dedupAdj l ↔ x ∈ l := by
  induction l with
  | nil => simp [dedupAdj]
  | cons a r ih =>
    cases r with
    | nil => simp [dedupAdj]
    | cons b s =>
      unfold dedupAdj
      by_cases h : a = b
      · rw [if_pos h]
        rw [ih]
        subst h
        simp
      · rw [if_neg h]
        simp only [List.mem_cons] at ih ⊢
        rw [ih]

/-- Helper: `sort_unstable` + `dedup` preserves membership. -/
theorem mem_sortDedup (x : Nat) (l : List Nat) : x ∈ sortDedup l ↔ x ∈ l := by
  unfold sortDedup
  rw [mem_dedupAdj, mem_sortNat]

/-- Helper: the first index of a member points back at it. -/
theorem idxOf_get {σ : Type _} [DecidableEq σ] (s : σ) (l : List σ) (h : s ∈ l) :
    l.get? (idxOf s l) = some s := by
  induction l with
  | nil => cases h
  | cons x r ih =>
    unfold idxOf
    by_cases hx : x = s
    · subst hx
      rw [if_pos rfl]
      rfl
    · rcases List.mem_cons.mp h with rfl | hr
      · exact absurd rfl hx
      · rw [if_neg hx]
        exact ih hr

/-- Helper: one mate-attractor round only adds nodes. -/
theorem mateStep_incl (g : MateGraph) (W : Finset Nat × Finset Nat) :
    W.1 ⊆ (mateStep g W).1 ∧ W.2 ⊆ (mateStep g W).2 :=
  ⟨Finset.subset_union_left, Finset.subset_union_left⟩

/-- Helper: accessors of the built mate graph at an index holding state `s`. -/
theorem buildMateGraph_at {σ : Type _} [DecidableEq σ] (uni : List σ)
    (blackM whiteM : σ → List σ) (inCheck : σ → Bool) (i : Nat) (s : σ)
    (hget : uni.get? i = some s) :
    (buildMateGraph uni blackM whiteM inCheck).esc i
        = ((blackM s).any fun w => decide (w ∉ uni)) ∧
      (buildMateGraph uni blackM whiteM inCheck).bw i
        = sortDedup ((blackM s).filterMap fun w =>
            if w ∈ uni then some (idxOf w uni) else none) ∧
      (buildMateGraph uni blackM whiteM inCheck).wb i
        = sortDedup ((whiteM s).filterMap fun b =>
            if b ∈ uni then some (idxOf b uni) else none) ∧
      (buildMateGraph uni blackM whiteM inCheck).chk i = inCheck s := by
  unfold buildMateGraph MateGraph.esc MateGraph.bw MateGraph.wb MateGraph.chk
  refine ⟨?_, ?_, ?_, ?_⟩ <;>
    (rw [List.getD_eq_getD_get?, List.get?_map, hget]; rfl)

/-- Helper: every winning node of the mate attractor is justified: a winning
black node has no escape and is a mate terminal or has all in-universe replies
winning; a winning white node has a winning in-universe successor. -/
theorem mateWinning_sound (g : MateGraph) :
    (∀ bi ∈ (mateWinning g).1,
      g.esc bi = false ∧
        ((g.bw bi = [] ∧ g.chk bi = true) ∨
          (g.bw bi ≠ [] ∧ ∀ wi ∈ g.bw bi, wi ∈ (mateWinning g).2))) ∧
    (∀ wi ∈ (mateWinning g).2, ∃ bi ∈ g.wb wi, bi ∈ (mateWinning g).1) := by
  unfold mateWinning
  generalize g.n + g.n + 1 = fuel
  induction fuel with
  | zero =>
    constructor
    · intro bi hbi
      simp only [Function.iterate_zero, id_eq] at hbi
      unfold mateSeeds at hbi
      rw [Finset.mem_filter] at hbi
      exact ⟨hbi.2.1, Or.inl ⟨hbi.2.2.1, hbi.2.2.2⟩⟩
    · intro wi hwi
      simp at hwi
  | succ k ih =>
    rw [Function.iterate_succ_apply']
    set W := (mateStep g)^[k] (mateSeeds g, ∅) with hW
    have hstep := mateStep_incl g W
    constructor
    · intro bi hbi
      rcases Finset.mem_union.mp hbi with hold | hnew
      · obtain ⟨hesc, hcase⟩ := ih.1 bi hold
        refine ⟨hesc, ?_⟩
        rcases hcase with hmate | ⟨hne, hall⟩
        · exact Or.inl hmate
        · exact Or.inr ⟨hne, fun wi hwi => hstep.2 (hall wi hwi)⟩
      · rw [Finset.mem_filter] at hnew
        exact ⟨hnew.2.1, Or.inr ⟨hnew.2.2.1, hnew.2.2.2⟩⟩
    · intro wi hwi
      rcases Finset.mem_union.mp hwi with hold | hnew
      · obtain ⟨bi, hbi, hin⟩ := ih.2 wi hold
        exact ⟨bi, hbi, hstep.1 hin⟩
      · rw [Finset.mem_filter] at hnew
        obtain ⟨bi, hbi, hin⟩ := hnew.2
        exact ⟨bi, hbi, hstep.1 hin⟩

/-- Helper: membership in the extracted winning set. -/
theorem forced_mate_winning_mem {σ : Type _} [DecidableEq σ] (uni : List σ)
    (blackM whiteM : σ → List σ) (inCheck : σ → Bool) (s : σ) :
    s ∈ forced_mate_winning uni blackM whiteM inCheck ↔
      ∃ bi, bi < uni.length ∧
        bi ∈ (mateWinning (buildMateGraph uni blackM whiteM inCheck)).1 ∧
        uni.get? bi = some s := by
  unfold forced_mate_winning
  rw [List.mem_filterMap]
  constructor
  · rintro ⟨bi, hbi, hf⟩
    rw [List.mem_range] at hbi
    by_cases hz : bi ∈ (mateWinning (buildMateGraph uni blackM whiteM inCheck)).1
    · rw [if_pos hz] at hf
      exact ⟨bi, hbi, hz, hf⟩
    · rw [if_neg hz] at hf
      cases hf
  · rintro ⟨bi, hbi, hz, hget⟩
    refine ⟨bi, List.mem_range.mpr hbi, ?_⟩
    rw [if_pos hz]
    exact hget

/-- C7: every state in `winning_btm` has no legal black reply leaving the
universe (its escape flag is false), and is either a mate terminal (origin
attacked, no legal black reply) or such that every legal black reply has some
legal white move landing back in `winning_btm`. -/
theorem forced_mate_winning_spec {σ : Type _} [DecidableEq σ] (uni : List σ)
    (blackM whiteM : σ → List σ) (inCheck : σ → Bool) :
    ∀ s ∈ forced_mate_winning uni blackM whiteM inCheck,
      (∀ w ∈ blackM s, w ∈ uni) ∧
      ((inCheck s = true ∧ blackM s = []) ∨
        ∀ w ∈ blackM s, ∃ x ∈ whiteM w,
          x ∈ forced_mate_winning uni blackM whiteM inCheck) := by
  intro s hs
  obtain ⟨bi, hbi, hwin, hget⟩ :=
    (forced_mate_winning_mem uni blackM whiteM inCheck s).mp hs
  obtain ⟨hescB, hbwB, hwbB, hchkB⟩ :=
    buildMateGraph_at uni blackM whiteM inCheck bi s hget
  have hsound := mateWinning_sound (buildMateGraph uni blackM whiteM inCheck)
  obtain ⟨hesc, hcase⟩ := hsound.1 bi hwin
  rw [hescB] at hesc
  have hnoesc : ∀ w ∈ blackM s, w ∈ uni := by
    intro w hw
    by_contra hnot
    have : (blackM s).any (fun w => decide (w ∉ uni)) = true :=
      List.any_eq_true.mpr ⟨w, hw, decide_eq_true hnot⟩
    rw [hesc] at this
    cases this
  refine ⟨hnoesc, ?_⟩
  rcases hcase with ⟨hnil, hchk⟩ | ⟨hne, hall⟩
  · left
    rw [hchkB] at hchk
    refine ⟨hchk, ?_⟩
    cases hbm : blackM s with
    | nil => rfl
    | cons w rest =>
      have hwmem : w ∈ blackM s := by rw [hbm]; exact List.mem_cons_self _ _
      have hwuni := hnoesc w hwmem
      have : idxOf w uni ∈ (buildMateGraph uni blackM whiteM inCheck).bw bi := by
        rw [hbwB, mem_sortDedup]
        exact List.mem_filterMap.mpr ⟨w, hwmem, by rw [if_pos hwuni]⟩
      rw [hnil] at this
      cases this
  · right
    intro w hw
    have hwuni := hnoesc w hw
    have hwi : idxOf w uni ∈ (buildMateGraph uni blackM whiteM inCheck).bw bi := by
      rw [hbwB, mem_sortDedup]
      exact List.mem_filterMap.mpr ⟨w, hw, by rw [if_pos hwuni]⟩
    have hwiwin := hall _ hwi
    obtain ⟨bj, hbj, hbjwin⟩ := hsound.2 _ hwiwin
    have hgetw : uni.get? (idxOf w uni) = some w := idxOf_get w uni hwuni
    obtain ⟨-, -, hwbW, -⟩ :=
      buildMateGraph_at uni blackM whiteM inCheck (idxOf w uni) w hgetw
    rw [hwbW, mem_sortDedup] at hbj
    obtain ⟨x, hx, hxif⟩ := List.mem_filterMap.mp hbj
    by_cases hxuni : x ∈ uni
    · rw [if_pos hxuni, Option.some.injEq] at hxif
      subst hxif
      refine ⟨x, hx, ?_⟩
      rw [forced_mate_winning_mem]
      have hgx : uni.get? (idxOf x uni) = some x := idxOf_get x uni hxuni
      have hlt : idxOf x uni < uni.length := by
        by_contra hge
        rw [List.get?_eq_none.mpr (by omega)] at hgx
        cases hgx
      exact ⟨idxOf x uni, hlt, hbjwin, hgx⟩
    · rw [if_neg hxuni] at hxif
      cases hxif

/-- A one-state universe for the forced-mate witness. -/
def mateUni : List Nat := [0]

/-- Black has no reply in the witness universe. -/
def mateBM : Nat → List Nat := fun _ => []

/-- White has no reply in the witness universe. -/
def mateWM : Nat → List Nat := fun _ => []

/-- The single witness state has the origin attacked. -/
def mateCK : Nat → Bool := fun _ => true

/-- C7 witness: the forced-mate specification at the one-state mate-terminal
universe. -/
theorem forced_mate_winning_spec_witness :
    0 ∈ forced_mate_winning mateUni mateBM mateWM mateCK ∧
    ((∀ w ∈ mateBM 0, w ∈ mateUni) ∧
      ((mateCK 0 = true ∧ mateBM 0 = []) ∨
        ∀ w ∈ mateBM 0, ∃ x ∈ mateWM w,
          x ∈ forced_mate_winning mateUni mateBM mateWM mateCK)) :=
  ⟨by decide, forced_mate_winning_spec mateUni mateBM mateWM mateCK 0 (by decide)⟩

/-- Helper: reading back a little-endian `u32`. -/
theorem readU32_u32Bytes (n : Nat) (h : n < 2 ^ 32) (rest : List Nat) :
    readU32 (u32Bytes n ++ rest) = some (n, rest) := by
  simp only [u32Bytes, List.cons_append, List.nil_append, readU32]
  rw [Option.some.injEq, Prod.mk.injEq]
  refine ⟨?_, rfl⟩
  norm_num at h ⊢
  omega

/-- Helper: reading back a little-endian two's-complement `i32`. -/
theorem readI32_i32Bytes (v : Int) (h1 : -(2 ^ 31) ≤ v) (h2 : v < 2 ^ 31) (rest : List Nat) :
    readI32 (i32Bytes v ++ rest) = some (v, rest) := by
  unfold readI32 i32Bytes
  have hm : (v % 2 ^ 32).toNat < 2 ^ 32 := by norm_num; omega
  rw [readU32_u32Bytes _ hm rest]
  simp only [Option.map_some']
  rw [Option.some.injEq, Prod.mk.injEq]
  refine ⟨?_, rfl⟩
  unfold toSigned
  norm_num at h1 h2 ⊢
  split_ifs with hs <;> omega

/-- Helper: reading back a little-endian two's-complement `i64`. -/
theorem readI64_i64Bytes (v : Int) (h1 : -(2 ^ 63) ≤ v) (h2 : v < 2 ^ 63) (rest : List Nat) :
    readI64 (i64Bytes v ++ rest) = some (v, rest) := by
  unfold i64Bytes u64Bytes
  simp only [List.cons_append, List.nil_append, readI64]
  rw [Option.some.injEq, Prod.mk.injEq]
  refine ⟨?_, rfl⟩
  have hm : (v % 2 ^ 64).toNat < 2 ^ 64 := by norm_num; omega
  have hsum : (v % 2 ^ 64).toNat % 256 + 256 * ((v % 2 ^ 64).toNat / 256 % 256) +
      256 ^ 2 * ((v % 2 ^ 64).toNat / 256 ^ 2 % 256) +
      256 ^ 3 * ((v % 2 ^ 64).toNat / 256 ^ 3 % 256) +
      256 ^ 4 * ((v % 2 ^ 64).toNat / 256 ^ 4 % 256) +
      256 ^ 5 * ((v % 2 ^ 64).toNat / 256 ^ 5 % 256) +
      256 ^ 6 * ((v % 2 ^ 64).toNat / 256 ^ 6 % 256) +
      256 ^ 7 * ((v % 2 ^ 64).toNat / 256 ^ 7 % 256) = (v % 2 ^ 64).toNat := by
    norm_num at hm ⊢
    omega
  rw [hsum]
  unfold toSigned
  norm_num at h1 h2 ⊢
  split_ifs with hs <;> omega


/-- Helper: reading back a written raw-square list. -/
theorem readRaws_roundtrip (l : List Int) (h : ∀ v ∈ l, -(2 ^ 63) ≤ v ∧ v < 2 ^ 63)
    (rest : List Nat) :
    readRaws l.length (l.flatMap i64Bytes ++ rest) = some (l, rest) := by
  induction l with
  | nil => simp [readRaws]
  | cons v t ih =>
    have hv := h v (List.mem_cons_self _ _)
    rw [List.flatMap_cons, List.append_assoc, List.length_cons]
    unfold readRaws
    rw [readI64_i64Bytes v hv.1 hv.2]
    simp only [Option.bind_eq_bind, Option.some_bind]
    rw [ih fun x hx => h x (List.mem_cons_of_mem _ hx)]
    rfl

/-- Helper: reading back a written state table. -/
theorem readStates_roundtrip (pc : Nat) (l : List SolState)
    (h : ∀ s ∈ l, s.squares.length = pc ∧
      (-(2 ^ 31) ≤ s.kingX ∧ s.kingX < 2 ^ 31) ∧
      (-(2 ^ 31) ≤ s.kingY ∧ s.kingY < 2 ^ 31) ∧
      ∀ v ∈ s.squares, -(2 ^ 63) ≤ v ∧ v < 2 ^ 63)
    (rest : List Nat) :
    readStates pc l.length
      ((l.flatMap fun s => i32Bytes s.kingX ++ i32Bytes s.kingY ++
        s.squares.flatMap i64Bytes) ++ rest) = some (l, rest) := by
  induction l with
  | nil => simp [readStates]
  | cons s t ih =>
    obtain ⟨hlen, hx, hy, hsq⟩ := h s (List.mem_cons_self _ _)
    rw [List.flatMap_cons, List.length_cons]
    unfold readStates
    simp only [List.append_assoc]
    rw [readI32_i32Bytes _ hx.1 hx.2]
    simp only [Option.bind_eq_bind, Option.some_bind]
    rw [readI32_i32Bytes _ hy.1 hy.2]
    simp only [Option.some_bind]
    have hraws := readRaws_roundtrip s.squares hsq
      ((t.flatMap fun s => i32Bytes s.kingX ++ i32Bytes s.kingY ++
        s.squares.flatMap i64Bytes) ++ rest)
    rw [hlen] at hraws
    simp only [List.append_assoc] at hraws
    rw [hraws]
    simp only [Option.some_bind]
    have hih := ih fun x hx => h x (List.mem_cons_of_mem _ hx)
    simp only [List.append_assoc] at hih
    rw [hih]
    rfl

/-- Helper: reading back a written u32 list. -/
theorem readU32List_roundtrip (l : List Nat) (h : ∀ n ∈ l, n < 2 ^ 32) (rest : List Nat) :
    readU32List l.length (l.flatMap u32Bytes ++ rest) = some (l, rest) := by
  induction l with
  | nil => simp [readU32List]
  | cons n t ih =>
    rw [List.flatMap_cons, List.append_assoc, List.length_cons]
    unfold readU32List
    rw [readU32_u32Bytes n (h n (List.mem_cons_self _ _))]
    simp only [Option.bind_eq_bind, Option.some_bind]
    rw [ih fun x hx => h x (List.mem_cons_of_mem _ hx)]
    rfl

/-- Helper: reading back a written transition table. -/
theorem readTransitions_roundtrip (l : List (Nat × List Nat))
    (h : ∀ t ∈ l, t.1 < 2 ^ 32 ∧ t.2.length = 8 ∧ ∀ n ∈ t.2, n < 2 ^ 32)
    (rest : List Nat) :
    readTransitions l.length
      ((l.flatMap fun t => u32Bytes t.1 ++ t.2.flatMap u32Bytes) ++ rest) = some (l, rest) := by
  induction l with
  | nil => simp [readTransitions]
  | cons t r ih =>
    obtain ⟨h1, h2, h3⟩ := h t (List.mem_cons_self _ _)
    rw [List.flatMap_cons, List.length_cons]
    unfold readTransitions
    simp only [List.append_assoc]
    rw [readU32_u32Bytes _ h1]
    simp only [Option.bind_eq_bind, Option.some_bind]
    have hlist := readU32List_roundtrip t.2 h3
      ((r.flatMap fun t => u32Bytes t.1 ++ t.2.flatMap u32Bytes) ++ rest)
    rw [h2] at hlist
    rw [hlist]
    simp only [Option.some_bind]
    rw [ih fun x hx => h x (List.mem_cons_of_mem _ hx)]
    rfl

/-- Helper: reading back a written strategy table. -/
theorem readPairs_roundtrip (l : List (Nat × Nat))
    (h : ∀ p ∈ l, p.1 < 2 ^ 32 ∧ p.2 < 2 ^ 32) (rest : List Nat) :
    readPairs l.length
      ((l.flatMap fun p => u32Bytes p.1 ++ u32Bytes p.2) ++ rest) = some (l, rest) := by
  induction l with
  | nil => simp [readPairs]
  | cons p r ih =>
    obtain ⟨h1, h2⟩ := h p (List.mem_cons_self _ _)
    rw [List.flatMap_cons, List.length_cons]
    unfold readPairs
    simp only [List.append_assoc]
    rw [readU32_u32Bytes _ h1]
    simp only [Option.bind_eq_bind, Option.some_bind]
    rw [readU32_u32Bytes _ h2]
    simp only [Option.some_bind]
    rw [ih fun x hx => h x (List.mem_cons_of_mem _ hx)]
    rfl


/-- Helper: taking the length of the left part of an append returns it. -/
theorem take_append_self {α : Type _} (l l2 : List α) : (l ++ l2).take l.length = l := by
  induction l with
  | nil => simp
  | cons a t ih => simp [ih]

/-- Helper: dropping the length of the left part of an append. -/
theorem drop_append_self {α : Type _} (l l2 : List α) : (l ++ l2).drop l.length = l2 := by
  induction l with
  | nil => simp
  | cons a t ih => simp [ih]

/-- Helper: a successful lifted read. -/
theorem liftRead_some {α : Type} (a : α) : liftRead (some a) = Except.ok a := rfl

/-- Helper: bind on a successful `Except`. -/
theorem ok_bind {α β : Type} (a : α) (f : α → Except String β) :
    (Except.ok a : Except String α) >>= f = f a := rfl

/-- Helper: bind after a passed check. -/
theorem unit_ok_bind {β : Type} (f : Unit → Except String β) :
    (pure () : Except String Unit) >>= f = f () := rfl

/-- Helper: bind after a failed check. -/
theorem throw_bind {β : Type} (e : String) (f : Unit → Except String β) :
    (throw e : Except String Unit) >>= f = Except.error e := rfl

/-- C8: for every `SolutionData` with u32-representable table lengths and ids,
i32-range king coordinates, i64-range raw squares, per-state square count
equal to the manifest's piece count, and 8-entry transition rows, writing with
`write_data` (format version 1) and reading the bytes back with `read_data`
at the same piece count returns the original data bit-exactly; `read_data`
errors on wrong magic bytes, on an unsupported format version, and on a piece
count that mismatches the manifest. -/
theorem write_data_read_data_roundtrip (pc : Nat) (d : SolutionData)
    (hpc : pc < 2 ^ 32)
    (hslen : d.states.length < 2 ^ 32)
    (hstates : ∀ s ∈ d.states, s.squares.length = pc ∧
      (-(2 ^ 31) ≤ s.kingX ∧ s.kingX < 2 ^ 31) ∧
      (-(2 ^ 31) ≤ s.kingY ∧ s.kingY < 2 ^ 31) ∧
      ∀ v ∈ s.squares, -(2 ^ 63) ≤ v ∧ v < 2 ^ 63)
    (htraplen : d.trap_set_ids.length < 2 ^ 32)
    (htrap : ∀ n ∈ d.trap_set_ids, n < 2 ^ 32)
    (htempolen : d.tempo_set_ids.length < 2 ^ 32)
    (htempo : ∀ n ∈ d.tempo_set_ids, n < 2 ^ 32)
    (htranslen : d.transitions.length < 2 ^ 32)
    (htrans : ∀ t ∈ d.transitions, t.1 < 2 ^ 32 ∧ t.2.length = 8 ∧ ∀ n ∈ t.2, n < 2 ^ 32)
    (hstrap1len : d.strategy_trap.length < 2 ^ 32)
    (hstrap1 : ∀ p ∈ d.strategy_trap, p.1 < 2 ^ 32 ∧ p.2 < 2 ^ 32)
    (hstrap2len : d.strategy_tempo.length < 2 ^ 32)
    (hstrap2 : ∀ p ∈ d.strategy_tempo, p.1 < 2 ^ 32 ∧ p.2 < 2 ^ 32) :
    (read_data (write_data 1 pc d) pc = Except.ok d) ∧
    (∀ m rest, m.length = 8 → m ≠ DATA_MAGIC →
      read_data (m ++ rest) pc = Except.error "solution data.bin has wrong magic bytes") ∧
    (∀ v rest, v < 2 ^ 32 → v ≠ 1 →
      read_data (DATA_MAGIC ++ (u32Bytes v ++ rest)) pc =
        Except.error "solution data.bin version is not supported") ∧
    (∀ pc2 rest, pc2 < 2 ^ 32 → pc2 ≠ pc →
      read_data (DATA_MAGIC ++ (u32Bytes 1 ++ (u32Bytes pc2 ++ rest))) pc =
        Except.error "solution data.bin piece_count mismatches manifest") := by
  refine ⟨?_, ?_, ?_, ?_⟩
  · unfold write_data read_data
    simp only [List.append_assoc]
    rw [show ((8 : Nat) = DATA_MAGIC.length) from rfl, take_append_self, drop_append_self]
    rw [if_neg (by simp), if_neg (by simp)]
    try simp only [unit_ok_bind]
    rw [readU32_u32Bytes 1 (by norm_num)]
    try simp only [liftRead_some, ok_bind]
    rw [if_neg (by simp)]
    try simp only [unit_ok_bind]
    rw [readU32_u32Bytes pc hpc]
    try simp only [liftRead_some, ok_bind]
    rw [if_neg (by simp)]
    try simp only [unit_ok_bind]
    rw [readU32_u32Bytes d.states.length hslen]
    try simp only [liftRead_some, ok_bind]
    have h1 := readStates_roundtrip pc d.states hstates
      (u32Bytes d.trap_set_ids.length ++ (d.trap_set_ids.flatMap u32Bytes ++
        (u32Bytes d.tempo_set_ids.length ++ (d.tempo_set_ids.flatMap u32Bytes ++
        (u32Bytes d.transitions.length ++
          ((d.transitions.flatMap fun t => u32Bytes t.1 ++ t.2.flatMap u32Bytes) ++
        (u32Bytes d.strategy_trap.length ++
          ((d.strategy_trap.flatMap fun p => u32Bytes p.1 ++ u32Bytes p.2) ++
        (u32Bytes d.strategy_tempo.length ++
          (d.strategy_tempo.flatMap fun p => u32Bytes p.1 ++ u32Bytes p.2))))))))))
    simp only [List.append_assoc] at h1
    rw [h1]
    try simp only [liftRead_some, ok_bind]
    rw [readU32_u32Bytes d.trap_set_ids.length htraplen]
    try simp only [liftRead_some, ok_bind]
    rw [readU32List_roundtrip d.trap_set_ids htrap]
    try simp only [liftRead_some, ok_bind]
    rw [readU32_u32Bytes d.tempo_set_ids.length htempolen]
    try simp only [liftRead_some, ok_bind]
    rw [readU32List_roundtrip d.tempo_set_ids htempo]
    try simp only [liftRead_some, ok_bind]
    rw [readU32_u32Bytes d.transitions.length htranslen]
    try simp only [liftRead_some, ok_bind]
    rw [readTransitions_roundtrip d.transitions htrans]
    try simp only [liftRead_some, ok_bind]
    rw [readU32_u32Bytes d.strategy_trap.length hstrap1len]
    try simp only [liftRead_some, ok_bind]
    rw [readPairs_roundtrip d.strategy_trap hstrap1]
    try simp only [liftRead_some, ok_bind]
    rw [readU32_u32Bytes d.strategy_tempo.length hstrap2len]
    try simp only [liftRead_some, ok_bind]
    have h2 := readPairs_roundtrip d.strategy_tempo hstrap2 []
    rw [List.append_nil] at h2
    rw [h2]
    rfl
  · intro m rest hm8 hne
    unfold read_data
    rw [← hm8, take_append_self]
    rw [if_neg (by simp [hm8]), if_pos hne]
    try simp only [unit_ok_bind, throw_bind]
  · intro v rest hv hne
    unfold read_data
    rw [show ((8 : Nat) = DATA_MAGIC.length) from rfl, take_append_self, drop_append_self]
    rw [if_neg (by simp), if_neg (by simp)]
    try simp only [unit_ok_bind]
    rw [readU32_u32Bytes v hv]
    try simp only [liftRead_some, ok_bind]
    rw [if_pos hne]
    try simp only [throw_bind]
  · intro pc2 rest hpc2 hne
    unfold read_data
    rw [show ((8 : Nat) = DATA_MAGIC.length) from rfl, take_append_self, drop_append_self]
    rw [if_neg (by simp), if_neg (by simp)]
    try simp only [unit_ok_bind]
    rw [readU32_u32Bytes 1 (by norm_num)]
    try simp only [liftRead_some, ok_bind]
    rw [if_neg (by simp)]
    try simp only [unit_ok_bind]
    rw [readU32_u32Bytes pc2 hpc2]
    try simp only [liftRead_some, ok_bind]
    rw [if_pos hne]
    try simp only [throw_bind]


/-- A small concrete solution bundle for the round-trip witness. -/
def sampleSolutionData : SolutionData :=
  { states := [⟨0, 1, [-3]⟩]
    trap_set_ids := [0]
    tempo_set_ids := []
    transitions := [(0, [0, 1, 2, 3, 4, 5, 6, 7])]
    strategy_trap := [(0, 0)]
    strategy_tempo := [] }

/-- C8 witness: the round trip at a concrete one-piece bundle. -/
theorem write_data_read_data_roundtrip_witness :
    (read_data (write_data 1 1 sampleSolutionData) 1 = Except.ok sampleSolutionData) ∧
    (∀ m rest, m.length = 8 → m ≠ DATA_MAGIC →
      read_data (m ++ rest) 1 = Except.error "solution data.bin has wrong magic bytes") ∧
    (∀ v rest, v < 2 ^ 32 → v ≠ 1 →
      read_data (DATA_MAGIC ++ (u32Bytes v ++ rest)) 1 =
        Except.error "solution data.bin version is not supported") ∧
    (∀ pc2 rest, pc2 < 2 ^ 32 → pc2 ≠ 1 →
      read_data (DATA_MAGIC ++ (u32Bytes 1 ++ (u32Bytes pc2 ++ rest))) 1 =
        Except.error "solution data.bin piece_count mismatches manifest") :=
  write_data_read_data_roundtrip 1 sampleSolutionData (by decide) (by decide) (by decide)
    (by decide) (by decide) (by decide) (by decide) (by decide) (by decide) (by decide)
    (by decide) (by decide) (by decide)

end InfChess
